import Mathlib

/-!
# Verification of the Mazegenerator core (grid model, generator, BFS solver)

Shallow embedding of the maze engine shared by `src/make_kdp_maze_book.py` and
`generate_kids_mazes.py`: the `Maze` dataclass (width, height, per-cell wall
dictionary), `Maze.create` / `Maze._generate` (iterative randomized
depth-first backtracker), `Maze.neighbors_open` and `Maze.solve_bfs`
(breadth-first search with predecessor reconstruction).

Modelling conventions:
* Python `int` coordinates become `Int`; a cell is an `Int × Int` pair.
* The wall dictionary `{"N": bool, "S": bool, "E": bool, "W": bool}` becomes
  the `Walls` structure.
* The cell dictionary `cells` maps exactly the in-bounds cells of the
  `width × height` rectangle (that is how `create` builds it and the spec's
  Grid invariant).  We represent it by a total function `Cell → Walls`
  together with the bounds; a Python dictionary lookup on a missing key
  raises `KeyError`, which we model by guarding lookups with the bounds
  check and returning `Option`/failure where the Python code can raise.
* The global `random` module state is modelled by an explicit stream of
  natural numbers `pick : Nat → Nat`; `random.choice(seq)` at the t-th call
  returns `seq[pick t % seq.length]`.  Theorems about generated mazes
  quantify over every stream, hence cover every possible behaviour of the
  real pseudo-random generator.
* Both `while` loops are embedded with explicit fuel; we prove that the
  chosen fuel always suffices (the loops terminate), so the fuel-exhaustion
  branches are never taken.
-/

/-- A grid cell `(x, y)`, exactly the Python `Cell = Tuple[int, int]`. -/
abbrev Cell : Type := Int × Int

/-- The four cardinal directions keying the per-cell wall dictionary. -/
inductive Dir : Type
  | n : Dir
  | s : Dir
  | e : Dir
  | w : Dir
deriving DecidableEq, Repr

/-- The wall record of one cell: `{"N": …, "S": …, "E": …, "W": …}`,
`true` = wall present. -/
structure Walls : Type where
  n : Bool
  s : Bool
  e : Bool
  w : Bool
deriving DecidableEq, Repr

/-- A fresh cell entry: all four walls present. -/
def allWalls : Walls := ⟨true, true, true, true⟩

/-- Read one direction of a wall record. -/
def wallGet (ws : Walls) : Dir → Bool
  | Dir.n => ws.n
  | Dir.s => ws.s
  | Dir.e => ws.e
  | Dir.w => ws.w

/-- Write one direction of a wall record (the Python
`cells[c][dir] = value`). -/
def wallSet (ws : Walls) : Dir → Bool → Walls
  | Dir.n, b => { ws with n := b }
  | Dir.s, b => { ws with s := b }
  | Dir.e, b => { ws with e := b }
  | Dir.w, b => { ws with w := b }

/-- The neighbouring cell in a given direction, matching the candidate list
of `_generate`: N is `(x, y-1)`, S is `(x, y+1)`, E is `(x+1, y)`,
W is `(x-1, y)`. -/
def dirDelta (d : Dir) (c : Cell) : Cell :=
  match d with
  | Dir.n => (c.1, c.2 - 1)
  | Dir.s => (c.1, c.2 + 1)
  | Dir.e => (c.1 + 1, c.2)
  | Dir.w => (c.1 - 1, c.2)

/-- The opposite direction (the wall on the neighbour's facing side). -/
def Dir.opp : Dir → Dir
  | Dir.n => Dir.s
  | Dir.s => Dir.n
  | Dir.e => Dir.w
  | Dir.w => Dir.e

/-- The `Maze` dataclass: `width`, `height`, and the cell dictionary.
The function `cells` carries the wall records of the in-bounds cells;
out-of-bounds lookups are `KeyError`s in Python and are modelled by the
`InBounds` guard wherever the code performs a dictionary access. -/
structure Maze : Type where
  width : Int
  height : Int
  cells : Cell → Walls

namespace Maze

/-- Membership of a cell in the grid rectangle, i.e. in the key set of the
Python `cells` dictionary built by `create`. -/
def InBounds (m : Maze) (c : Cell) : Prop :=
  0 ≤ c.1 ∧ c.1 < m.width ∧ 0 ≤ c.2 ∧ c.2 < m.height

instance (m : Maze) (c : Cell) : Decidable (m.InBounds c) := by
  unfold InBounds
  exact inferInstance

end Maze

/-- State of the `_generate` loop: the evolving cell dictionary, the explicit
stack, the visited set (a duplicate-free list), and the number of random
choices consumed so far (the position in the `pick` stream). -/
structure GenState : Type where
  cells : Cell → Walls
  stack : List Cell
  visited : List Cell
  t : Nat

/-- The candidate list of `_generate`, in source order:
`[((x, y-1), "N", "S"), ((x, y+1), "S", "N"), ((x+1, y), "E", "W"),
((x-1, y), "W", "E")]`. -/
def cand (c : Cell) : List (Cell × Dir × Dir) :=
  [ (dirDelta Dir.n c, Dir.n, Dir.s)
  , (dirDelta Dir.s c, Dir.s, Dir.n)
  , (dirDelta Dir.e c, Dir.e, Dir.w)
  , (dirDelta Dir.w c, Dir.w, Dir.e) ]

/-- Bounds test against explicit dimensions
(`0 <= nx < self.width and 0 <= ny < self.height`). -/
def inRect (W H : Int) (c : Cell) : Prop :=
  0 ≤ c.1 ∧ c.1 < W ∧ 0 ≤ c.2 ∧ c.2 < H

instance (W H : Int) (c : Cell) : Decidable (inRect W H c) := by
  unfold inRect
  exact inferInstance

/-- Update the wall dictionary at one cell and one direction
(`self.cells[c][d] = False`). -/
def clearWall (cells : Cell → Walls) (c : Cell) (d : Dir) : Cell → Walls :=
  fun x => if x = c then wallSet (cells c) d false else cells x

/-- One iteration of the `while stack:` body of `_generate`: inspect the top
of the stack, filter the in-bounds unvisited candidates, and either carve to
a randomly chosen neighbour (pushing it) or pop. -/
def genStep (W H : Int) (pick : Nat → Nat) (st : GenState) : GenState :=
  match st.stack with
  | [] => st
  | current :: rest =>
    let nbrs := (cand current).filter
      (fun p => decide (inRect W H p.1 ∧ p.1 ∉ st.visited))
    if nbrs.isEmpty then
      { st with stack := rest }
    else
      let chosen := nbrs.getD (pick st.t % nbrs.length) ((0, 0), Dir.n, Dir.n)
      { cells := clearWall (clearWall st.cells current chosen.2.1)
          chosen.1 chosen.2.2
        stack := chosen.1 :: current :: rest
        visited := chosen.1 :: st.visited
        t := st.t + 1 }

/-- The `while stack:` loop of `_generate`, run with explicit fuel; stops as
soon as the stack is empty. -/
def genLoop (W H : Int) (pick : Nat → Nat) : Nat → GenState → GenState
  | 0, st => st
  | fuel + 1, st =>
    if st.stack.isEmpty then st else genLoop W H pick fuel (genStep W H pick st)

/-- Initial state of `_generate`: start cell `(0,0)` pushed and visited,
every cell entry fully walled. -/
def genInit : GenState :=
  { cells := fun _ => allWalls, stack := [(0, 0)], visited := [(0, 0)], t := 0 }

/-- Fuel that always suffices for the generation loop (proved below):
each iteration either pushes a fresh in-bounds cell or pops. -/
def genFuel (W H : Int) : Nat := 2 * (W.toNat * H.toNat) + 2

/-- `Maze.create(width, height)` with the randomness stream made explicit:
build the fully walled grid, run `_generate`, return the maze. -/
def Maze.create (W H : Int) (pick : Nat → Nat) : Maze :=
  { width := W, height := H
    cells := (genLoop W H pick (genFuel W H) genInit).cells }

/-- Modelled from the spec: the global pseudo-random generator of Python's
`random` module (library code outside this repository).  `random.seed(s)`
deterministically resets the global state from the seed and each draw then
evolves it deterministically; we model the stream of draws after seeding
with `s` by iterating a concrete linear congruential step.  Only its
determinism matters for the claims. -/
def mtStream (s : Int) (t : Nat) : Nat :=
  Nat.rec (s.natAbs % 2147483648)
    (fun _ x => (1103515245 * x + 12345) % 2147483648) (t + 1)

/-- `Maze.create(width, height, seed)` including the seeding convention of
`make_kdp_maze_book.py`: `g` is the stream the ambient global generator
would produce; when a seed is supplied, `random.seed(seed)` replaces it by
the stream determined by the seed. -/
def Maze.createSeeded (W H : Int) (g : Nat → Nat) (seed : Option Int) : Maze :=
  match seed with
  | some s => Maze.create W H (mtStream s)
  | none => Maze.create W H g

namespace Maze

/-- `neighbors_open`: the list of open in-bounds neighbours of `cell`, in
source order N, S, E, W.  The Python body first reads
`self.cells[cell]`, a `KeyError` when `cell` is outside the dictionary;
we return `none` in that case. -/
def neighbors_open (m : Maze) (c : Cell) : Option (List Cell) :=
  if m.InBounds c then
    some (((if (m.cells c).n = false ∧ 0 ≤ c.2 - 1 then
              [(c.1, c.2 - 1)] else []) ++
           (if (m.cells c).s = false ∧ c.2 + 1 < m.height then
              [(c.1, c.2 + 1)] else []) ++
           (if (m.cells c).e = false ∧ c.1 + 1 < m.width then
              [(c.1 + 1, c.2)] else []) ++
           (if (m.cells c).w = false ∧ 0 ≤ c.1 - 1 then
              [(c.1 - 1, c.2)] else [])))
  else none

end Maze

/-- The `came_from` dictionary: insertion-ordered association list, newest
entry first; the value `none` marks the start cell
(`came_from = {start: None}`). -/
abbrev CameFrom : Type := List (Cell × Option Cell)

/-- Dictionary lookup: `some v` when the key is present with stored value
`v`, `none` when absent. -/
def cfGet : CameFrom → Cell → Option (Option Cell)
  | [], _ => none
  | (k, v) :: rest, c => if k = c then some v else cfGet rest c

/-- `came_from.get(cur)`: `None` both when the key is absent and when the
stored predecessor is `None`. -/
def cfGetD (cf : CameFrom) (c : Cell) : Option Cell :=
  (cfGet cf c).getD none

/-- The key list of a `came_from` dictionary. -/
def cfKeys (cf : CameFrom) : List Cell := cf.map Prod.fst

/-- The `for nb in self.neighbors_open(cur):` body of `solve_bfs`: append
each undiscovered neighbour to the queue and record its predecessor. -/
def bfsExpand (cur : Cell) (nbs : List Cell) (q : List Cell) (cf : CameFrom) :
    List Cell × CameFrom :=
  nbs.foldl
    (fun acc nb =>
      if (cfGet acc.2 nb).isSome then acc
      else (acc.1 ++ [nb], (nb, some cur) :: acc.2))
    (q, cf)

/-- The `while queue:` loop of `solve_bfs` with explicit fuel: dequeue from
the front, stop when the goal is dequeued, otherwise expand; a `KeyError`
inside `neighbors_open` aborts the whole call (`none`). -/
def bfsLoop (m : Maze) (goal : Cell) :
    Nat → List Cell → CameFrom → Option CameFrom
  | 0, _, cf => some cf
  | fuel + 1, q, cf =>
    match q with
    | [] => some cf
    | cur :: rest =>
      if cur = goal then some cf
      else
        match m.neighbors_open cur with
        | none => none
        | some nbs =>
          let qcf := bfsExpand cur nbs rest cf
          bfsLoop m goal fuel qcf.1 qcf.2

/-- The path-reconstruction loop of `solve_bfs`
(`while cur is not None: path.append(cur); cur = came_from.get(cur)`),
with explicit fuel. -/
def walkBack (cf : CameFrom) : Nat → Cell → List Cell
  | 0, c => [c]
  | fuel + 1, c =>
    match cfGetD cf c with
    | none => [c]
    | some p => c :: walkBack cf fuel p

/-- Fuel that always suffices for the BFS loop (proved below). -/
def bfsFuel (m : Maze) : Nat := m.width.toNat * m.height.toNat + 2

/-- `solve_bfs(start, goal)`: default goal is the opposite corner; run BFS
and rebuild the path backwards from the goal, then reverse it.  Result is
`none` exactly when the Python call raises (`KeyError` on an out-of-bounds
dictionary access). -/
def Maze.solve_bfs (m : Maze) (start : Cell) (goalOpt : Option Cell) :
    Option (List Cell) :=
  let goal := goalOpt.getD (m.width - 1, m.height - 1)
  match bfsLoop m goal (bfsFuel m) [start] [(start, none)] with
  | none => none
  | some cf => some ((walkBack cf cf.length goal).reverse)

/-- Method-call view of `neighbors_open`: Python passes `self` to the
method and the method body performs no assignment to `self`, so the state
it leaves behind is the state it received. -/
def Maze.neighborsOpenCall (m : Maze) (c : Cell) :
    Option (List Cell) × Maze :=
  (m.neighbors_open c, m)

/-- Method-call view of `solve_bfs`: result paired with the `self` left
behind by the call (the body performs no assignment to `self`). -/
def Maze.solveCall (m : Maze) (start : Cell) (goalOpt : Option Cell) :
    Option (List Cell) × Maze :=
  (m.solve_bfs start goalOpt, m)

/-- The open-adjacency relation of the spec: two in-bounds, unit-adjacent
cells whose shared wall is absent on both facing sides. -/
def Maze.openPair (m : Maze) (a b : Cell) : Prop :=
  m.InBounds a ∧ m.InBounds b ∧
  ∃ d : Dir, b = dirDelta d a ∧
    wallGet (m.cells a) d = false ∧
    wallGet (m.cells b) d.opp = false

/-- `openPair` unfolded over the four directions (for decidability). -/
theorem Maze.openPair_cases (m : Maze) (a b : Cell) :
    m.openPair a b ↔
      m.InBounds a ∧ m.InBounds b ∧
      ((b = dirDelta Dir.n a ∧ wallGet (m.cells a) Dir.n = false ∧
          wallGet (m.cells b) Dir.s = false) ∨
       (b = dirDelta Dir.s a ∧ wallGet (m.cells a) Dir.s = false ∧
          wallGet (m.cells b) Dir.n = false) ∨
       (b = dirDelta Dir.e a ∧ wallGet (m.cells a) Dir.e = false ∧
          wallGet (m.cells b) Dir.w = false) ∨
       (b = dirDelta Dir.w a ∧ wallGet (m.cells a) Dir.w = false ∧
          wallGet (m.cells b) Dir.e = false)) := by
  constructor
  · rintro ⟨ha, hb, d, hd⟩
    refine ⟨ha, hb, ?_⟩
    cases d
    · exact Or.inl hd
    · exact Or.inr (Or.inl hd)
    · exact Or.inr (Or.inr (Or.inl hd))
    · exact Or.inr (Or.inr (Or.inr hd))
  · rintro ⟨ha, hb, h | h | h | h⟩
    · exact ⟨ha, hb, Dir.n, h⟩
    · exact ⟨ha, hb, Dir.s, h⟩
    · exact ⟨ha, hb, Dir.e, h⟩
    · exact ⟨ha, hb, Dir.w, h⟩

instance (m : Maze) (a b : Cell) : Decidable (m.openPair a b) :=
  decidable_of_iff _ (m.openPair_cases a b).symm

/-- A path for a step relation `r`: a non-empty cell list from `a` to `b`
whose consecutive elements are `r`-related. -/
def IsPathR (r : Cell → Cell → Prop) (p : List Cell) (a b : Cell) : Prop :=
  p.head? = some a ∧ p.getLast? = some b ∧ List.Chain' r p

/-- A path in a maze: non-empty cell list from `a` to `b`, each consecutive
pair an open adjacency. -/
def IsPath (m : Maze) (p : List Cell) (a b : Cell) : Prop :=
  IsPathR m.openPair p a b

/-- A simple path: a path without repeated cells. -/
def IsSimplePath (m : Maze) (p : List Cell) (a b : Cell) : Prop :=
  IsPath m p a b ∧ p.Nodup

/-- All in-bounds cells of a `W × H` grid, column by column (the iteration
order of `create`). -/
def cellList (W H : Int) : List Cell :=
  ((List.range W.toNat) ×ˢ (List.range H.toNat)).map
    fun p => ((p.1 : Int), (p.2 : Int))

/-- Number of open edges of a maze: each undirected open edge is counted
once, at its west/north endpoint (its east or south slot). -/
def openEdgeCount (m : Maze) : Nat :=
  ((cellList m.width m.height).map fun c =>
    (if m.openPair c (dirDelta Dir.e c) then 1 else 0) +
    (if m.openPair c (dirDelta Dir.s c) then 1 else 0)).sum

/-- One step of the solver's adjacency: `b` is in the list computed by
`neighbors_open a`. -/
def Maze.Rstep (m : Maze) (a b : Cell) : Prop :=
  ∃ l, m.neighbors_open a = some l ∧ b ∈ l

/-- Reachability through the solver's open adjacency. -/
def Maze.Reaches (m : Maze) (a b : Cell) : Prop :=
  Relation.ReflTransGen m.Rstep a b

/-! ## Basic facts about directions, walls, and the cell list -/

theorem Dir.opp_opp (d : Dir) : d.opp.opp = d := by
  cases d <;> rfl

theorem dirDelta_opp (d : Dir) (c : Cell) :
    dirDelta d.opp (dirDelta d c) = c := by
  cases d <;> simp [dirDelta, Dir.opp]

theorem dirDelta_ne (d : Dir) (c : Cell) : dirDelta d c ≠ c := by
  cases d <;> simp [dirDelta, Prod.ext_iff]

theorem wallGet_wallSet (ws : Walls) (d d' : Dir) (b : Bool) :
    wallGet (wallSet ws d b) d' = if d' = d then b else wallGet ws d' := by
  cases d <;> cases d' <;> simp [wallGet, wallSet]

theorem wallGet_allWalls (d : Dir) : wallGet allWalls d = true := by
  cases d <;> rfl

theorem clearWall_get (cells : Cell → Walls) (c : Cell) (d : Dir) (x : Cell)
    (d' : Dir) :
    wallGet (clearWall cells c d x) d' =
      if x = c ∧ d' = d then false else wallGet (cells x) d' := by
  unfold clearWall
  rcases eq_or_ne x c with hx | hx
  · subst hx
    simp [wallGet_wallSet]
  · simp [hx]

theorem mem_cellList (W H : Int) (c : Cell) :
    c ∈ cellList W H ↔ inRect W H c := by
  unfold cellList inRect
  constructor
  · intro h
    simp only [List.mem_map] at h
    obtain ⟨p, hp, hpc⟩ := h
    rw [List.mem_product] at hp
    simp only [List.mem_range] at hp
    subst hpc
    refine ⟨by positivity, ?_, by positivity, ?_⟩ <;> omega
  · rintro ⟨h1, h2, h3, h4⟩
    simp only [List.mem_map]
    refine ⟨(c.1.toNat, c.2.toNat), ?_, ?_⟩
    · rw [List.mem_product]
      simp only [List.mem_range]
      omega
    · simp only [Prod.ext_iff]
      constructor <;> simp <;> omega

theorem cellList_nodup (W H : Int) : (cellList W H).Nodup := by
  unfold cellList
  refine List.Nodup.map ?_ ?_
  · intro p q hpq
    simp only [Prod.ext_iff] at hpq ⊢
    omega
  · exact List.Nodup.product (List.nodup_range _) (List.nodup_range _)

theorem cellList_length (W H : Int) :
    (cellList W H).length = W.toNat * H.toNat := by
  unfold cellList
  rw [List.length_map, List.length_product, List.length_range,
    List.length_range]

/-! ## Generic path lemmas -/

theorem isPathR_singleton (r : Cell → Cell → Prop) (a : Cell) :
    IsPathR r [a] a a :=
  ⟨rfl, rfl, List.chain'_singleton a⟩

theorem IsPathR.ne_nil {r : Cell → Cell → Prop} {p : List Cell} {a b : Cell}
    (h : IsPathR r p a b) : p ≠ [] := by
  intro hnil
  rw [hnil] at h
  exact Option.noConfusion h.1

theorem nodup_path_self {r : Cell → Cell → Prop} {p : List Cell} {a : Cell}
    (h : IsPathR r p a a) (hnd : p.Nodup) : p = [a] := by
  obtain ⟨h1, h2, _⟩ := h
  match p, h1 with
  | x :: xs, h1 =>
    simp only [List.head?_cons, Option.some.injEq] at h1
    subst h1
    match xs with
    | [] => rfl
    | y :: ys =>
      exfalso
      rw [List.getLast?_cons_cons] at h2
      have hmem : x ∈ y :: ys :=
        List.mem_of_mem_getLast? (by rw [h2]; rfl)
      rw [List.nodup_cons] at hnd
      exact hnd.1 hmem

theorem IsPathR.reverse {r : Cell → Cell → Prop} {p : List Cell} {a b : Cell}
    (hsym : ∀ x y, r x y → r y x) (h : IsPathR r p a b) :
    IsPathR r p.reverse b a := by
  obtain ⟨h1, h2, h3⟩ := h
  refine ⟨?_, ?_, ?_⟩
  · rw [List.head?_reverse]
    exact h2
  · rw [List.getLast?_reverse]
    exact h1
  · rw [List.chain'_reverse]
    exact List.Chain'.imp (fun x y hxy => hsym x y hxy) h3

theorem reflTransGen_of_pathR {r : Cell → Cell → Prop} :
    ∀ (p : List Cell) (a b : Cell), p.head? = some a → p.getLast? = some b →
      List.Chain' r p → Relation.ReflTransGen r a b := by
  intro p
  induction p with
  | nil => intro a b h1 _ _; exact Option.noConfusion h1
  | cons x xs ih =>
    intro a b h1 h2 h3
    simp only [List.head?_cons, Option.some.injEq] at h1
    subst h1
    match xs with
    | [] =>
      simp only [List.getLast?_singleton, Option.some.injEq] at h2
      subst h2
      exact Relation.ReflTransGen.refl
    | y :: ys =>
      rw [List.chain'_cons] at h3
      rw [List.getLast?_cons_cons] at h2
      exact Relation.ReflTransGen.head h3.1 (ih y b rfl h2 h3.2)

theorem IsPathR.reaches {r : Cell → Cell → Prop} {p : List Cell} {a b : Cell}
    (h : IsPathR r p a b) : Relation.ReflTransGen r a b :=
  reflTransGen_of_pathR p a b h.1 h.2.1 h.2.2

theorem IsPathR.cons {r : Cell → Cell → Prop} {p : List Cell} {a c b : Cell}
    (hr : r a c) (h : IsPathR r p c b) : IsPathR r (a :: p) a b := by
  obtain ⟨h1, h2, h3⟩ := h
  match p, h1 with
  | x :: xs, h1 =>
    simp only [List.head?_cons, Option.some.injEq] at h1
    subst h1
    refine ⟨rfl, ?_, ?_⟩
    · rw [List.getLast?_cons_cons]
      exact h2
    · rw [List.chain'_cons]
      exact ⟨hr, h3⟩

theorem IsPathR.tail_path {r : Cell → Cell → Prop} {xs : List Cell}
    {a c b : Cell} (h : IsPathR r (a :: c :: xs) a b) :
    r a c ∧ IsPathR r (c :: xs) c b := by
  obtain ⟨_, h2, h3⟩ := h
  rw [List.chain'_cons] at h3
  rw [List.getLast?_cons_cons] at h2
  exact ⟨h3.1, rfl, h2, h3.2⟩

theorem IsPathR.append_last {r : Cell → Cell → Prop} {p : List Cell}
    {a u v : Cell} (h : IsPathR r p a u) (hr : r u v) :
    IsPathR r (p ++ [v]) a v := by
  obtain ⟨h1, h2, h3⟩ := h
  refine ⟨?_, ?_, ?_⟩
  · match p, h1 with
    | x :: xs, h1 => simpa using h1
  · rw [List.getLast?_append_of_ne_nil _ (by simp)]
    rfl
  · rw [List.chain'_append]
    refine ⟨h3, List.chain'_singleton _, ?_⟩
    intro x hx y hy
    have hx' : x = u := by
      rw [h2] at hx
      have : u = x := by simpa using hx
      exact this.symm
    have hy' : y = v := by
      have := hy
      simp only [List.head?_cons, Option.mem_def, Option.some.injEq] at this
      exact this.symm
    rw [hx', hy']
    exact hr

/-! ## Unique simple paths and pendant-vertex extension

The generation invariant maintains that the open graph restricted to the
visited cells has a unique simple path between any two visited cells; each
carving step attaches a brand-new vertex `v` by a single edge to a visited
vertex `u`, which preserves the property. -/

theorem usp_pair_self (r : Cell → Cell → Prop) (a : Cell) :
    ∃! p, IsPathR r p a a ∧ p.Nodup := by
  refine ⟨[a], ⟨isPathR_singleton r a, List.nodup_singleton a⟩, ?_⟩
  rintro q ⟨hq, hqnd⟩
  exact nodup_path_self hq hqnd

theorem chain'_imp_mem {r r' : Cell → Cell → Prop} :
    ∀ p : List Cell, List.Chain' r' p →
      (∀ x y, x ∈ p → y ∈ p → r' x y → r x y) → List.Chain' r p := by
  intro p
  induction p with
  | nil => intro _ _; simp
  | cons x xs ih =>
    intro h himp
    rw [List.chain'_cons'] at h ⊢
    refine ⟨?_, ?_⟩
    · intro y hy
      exact himp x y (List.mem_cons_self x xs)
        (List.mem_cons_of_mem x (List.mem_of_mem_head? hy)) (h.1 y hy)
    · exact ih h.2 fun x' y' hx' hy' =>
        himp x' y' (List.mem_cons_of_mem x hx') (List.mem_cons_of_mem x hy')

theorem no_edges_mem_path {r : Cell → Cell → Prop} {v : Cell}
    (hvl : ∀ x, ¬ r v x) (hvr : ∀ x, ¬ r x v) :
    ∀ p : List Cell, List.Chain' r p → v ∈ p → p = [v] := by
  intro p
  induction p with
  | nil => intro _ hv; exact absurd hv (List.not_mem_nil v)
  | cons x xs ih =>
    intro hch hv
    rcases List.mem_cons.mp hv with hx | hx
    · subst hx
      match xs with
      | [] => rfl
      | y :: ys =>
        rw [List.chain'_cons] at hch
        exact absurd hch.1 (hvl y)
    · match xs with
      | [] => exact absurd hx (List.not_mem_nil v)
      | y :: ys =>
        rw [List.chain'_cons] at hch
        have hys := ih hch.2 hx
        injection hys with hyv hysnil
        exact absurd (hyv ▸ hch.1) (hvr x)

theorem pendant_not_mem_path {r' : Cell → Cell → Prop} {u v : Cell}
    (hto : ∀ x, r' x v → x = u) (hfrom : ∀ y, r' v y → y = u) :
    ∀ p : List Cell, List.Chain' r' p → p.Nodup →
      p.head? ≠ some v → p.getLast? ≠ some v → v ∉ p := by
  intro p
  induction p with
  | nil => intro _ _ _ _; exact List.not_mem_nil v
  | cons x xs ih =>
    intro hch hnd hhd hlst hv
    rcases List.mem_cons.mp hv with hx | hx
    · exact hhd (by rw [hx]; rfl)
    · match xs, hx with
      | y :: ys, hx =>
        rcases eq_or_ne y v with hy | hy
        · subst hy
          rw [List.chain'_cons] at hch
          have hxu : x = u := hto x hch.1
          match ys with
          | [] => exact hlst (by rw [List.getLast?_cons_cons]; rfl)
          | z :: zs =>
            rw [List.chain'_cons] at hch
            have hzu : z = u := hfrom z hch.2.1
            rw [List.nodup_cons] at hnd
            exact hnd.1 (by
              rw [hxu, ← hzu]
              exact List.mem_cons_of_mem y (List.mem_cons_self z zs))
        · refine ih ?_ ?_ ?_ ?_ hx
          · rw [List.chain'_cons] at hch
            exact hch.2
          · exact (List.nodup_cons.mp hnd).2
          · intro hcon
            rw [List.head?_cons] at hcon
            exact hy (Option.some.injEq _ _ ▸ hcon)
          · intro hcon
            rw [List.getLast?_cons_cons] at hlst
            exact hlst hcon
theorem usp_pendant_to_v
    {r r' : Cell → Cell → Prop} {S : Cell → Prop} {u v : Cell}
    (hsub : ∀ x y, r x y → r' x y)
    (hnew : ∀ x y, r' x y → r x y ∨ (x = u ∧ y = v) ∨ (x = v ∧ y = u))
    (hvl : ∀ x, ¬ r v x) (hvr : ∀ x, ¬ r x v)
    (hto : ∀ x, r' x v → x = u)
    (huS : S u) (hvS : ¬ S v)
    (hr'uv : r' u v)
    (husp : ∀ a b, S a → S b → ∃! p, IsPathR r p a b ∧ p.Nodup) :
    ∀ a, S a → ∃! p, IsPathR r' p a v ∧ p.Nodup := by
  intro a haS
  obtain ⟨q, ⟨hq, hqnd⟩, hquniq⟩ := husp a u haS huS
  have hvq : v ∉ q := by
    intro hvq
    have hone := no_edges_mem_path hvl hvr q hq.2.2 hvq
    rw [hone] at hq
    have hav : a = v := by
      have h1 := hq.1
      simpa using h1.symm
    exact hvS (hav ▸ haS)
  refine ⟨q ++ [v], ⟨?_, ?_⟩, ?_⟩
  · exact IsPathR.append_last ⟨hq.1, hq.2.1,
      List.Chain'.imp (fun x y hxy => hsub x y hxy) hq.2.2⟩ hr'uv
  · exact hqnd.append (List.nodup_singleton v)
      (fun x hxq hxv => hvq ((List.mem_singleton.mp hxv) ▸ hxq))
  · rintro q' ⟨hq', hq'nd⟩
    have hne : q' ≠ [] := hq'.ne_nil
    have hlast : q'.getLast hne = v := by
      have hg := hq'.2.1
      rw [List.getLast?_eq_getLast_of_ne_nil hne] at hg
      exact Option.some.inj hg
    have hsplit : q'.dropLast ++ [v] = q' := by
      have hd := List.dropLast_append_getLast hne
      rw [hlast] at hd
      exact hd
    have hdlne : q'.dropLast ≠ [] := by
      intro hcon
      rw [hcon] at hsplit
      rw [← hsplit] at hq'
      have hav : a = v := by
        have h1 := hq'.1
        simpa using h1.symm
      exact hvS (hav ▸ haS)
    have hvdl : v ∉ q'.dropLast := by
      intro hcon
      rw [← hsplit, List.nodup_append] at hq'nd
      exact hq'nd.2.2 hcon (List.mem_singleton.mpr rfl)
    have hchsplit : List.Chain' r' (q'.dropLast ++ [v]) := by
      rw [hsplit]
      exact hq'.2.2
    rw [List.chain'_append] at hchsplit
    have hlastu : q'.dropLast.getLast? = some u := by
      rw [List.getLast?_eq_getLast_of_ne_nil hdlne]
      have hstep := hchsplit.2.2 (q'.dropLast.getLast hdlne)
        (by rw [List.getLast?_eq_getLast_of_ne_nil hdlne]; rfl) v rfl
      rw [hto _ hstep]
    have hdlpath : IsPathR r q'.dropLast a u := by
      refine ⟨?_, hlastu, ?_⟩
      · have hh := hq'.1
        rw [← hsplit, List.head?_append_of_ne_nil _ hdlne] at hh
        exact hh
      · refine chain'_imp_mem q'.dropLast hchsplit.1 ?_
        intro x y hxm hym hxy
        rcases hnew x y hxy with h | ⟨_, hyv⟩ | ⟨hxv, _⟩
        · exact h
        · exact absurd (hyv ▸ hym) hvdl
        · exact absurd (hxv ▸ hxm) hvdl
    have hdlnd : q'.dropLast.Nodup := by
      rw [← hsplit, List.nodup_append] at hq'nd
      exact hq'nd.1
    have hdl : q'.dropLast = q := hquniq q'.dropLast ⟨hdlpath, hdlnd⟩
    rw [← hsplit, hdl]

theorem usp_pendant
    {r r' : Cell → Cell → Prop} {S : Cell → Prop} {u v : Cell}
    (hsym : ∀ x y, r x y → r y x)
    (hsub : ∀ x y, r x y → r' x y)
    (hnew : ∀ x y, r' x y → r x y ∨ (x = u ∧ y = v) ∨ (x = v ∧ y = u))
    (hvl : ∀ x, ¬ r v x) (hvr : ∀ x, ¬ r x v)
    (huv : u ≠ v) (huS : S u) (hvS : ¬ S v)
    (hr'uv : r' u v) (hr'vu : r' v u)
    (husp : ∀ a b, S a → S b → ∃! p, IsPathR r p a b ∧ p.Nodup) :
    ∀ a b, (S a ∨ a = v) → (S b ∨ b = v) →
      ∃! p, IsPathR r' p a b ∧ p.Nodup := by
  have hto : ∀ x, r' x v → x = u := by
    intro x hx
    rcases hnew x v hx with h | ⟨hxu, _⟩ | ⟨hxv, hvu⟩
    · exact absurd h (hvr x)
    · exact hxu
    · exact absurd hvu.symm huv
  have hfrom : ∀ y, r' v y → y = u := by
    intro y hy
    rcases hnew v y hy with h | ⟨hvu, _⟩ | ⟨_, hyu⟩
    · exact absurd h (hvl y)
    · exact absurd hvu huv.symm
    · exact hyu
  have hr'sym : ∀ x y, r' x y → r' y x := by
    intro x y hxy
    rcases hnew x y hxy with h | ⟨hxu, hyv⟩ | ⟨hxv, hyu⟩
    · exact hsub y x (hsym x y h)
    · rw [hxu, hyv]; exact hr'vu
    · rw [hxv, hyu]; exact hr'uv
  intro a b ha hb
  rcases ha with haS | hav
  · rcases hb with hbS | hbv
    · -- both old vertices: r'-simple-paths avoid v and coincide with r-paths
      obtain ⟨p, ⟨hp, hpnd⟩, hpuniq⟩ := husp a b haS hbS
      refine ⟨p, ⟨⟨hp.1, hp.2.1,
        List.Chain'.imp (fun x y hxy => hsub x y hxy) hp.2.2⟩, hpnd⟩, ?_⟩
      rintro q ⟨hq, hqnd⟩
      have hvq : v ∉ q := by
        refine pendant_not_mem_path hto hfrom q hq.2.2 hqnd ?_ ?_
        · rw [hq.1]
          intro hcon
          exact hvS ((Option.some.inj hcon) ▸ haS)
        · rw [hq.2.1]
          intro hcon
          exact hvS ((Option.some.inj hcon) ▸ hbS)
      refine hpuniq q ⟨⟨hq.1, hq.2.1, ?_⟩, hqnd⟩
      refine chain'_imp_mem q hq.2.2 ?_
      intro x y hxm hym hxy
      rcases hnew x y hxy with h | ⟨_, hyv⟩ | ⟨hxv, _⟩
      · exact h
      · exact absurd (hyv ▸ hym) hvq
      · exact absurd (hxv ▸ hxm) hvq
    · subst hbv
      exact usp_pendant_to_v hsub hnew hvl hvr hto huS hvS hr'uv husp a haS
  · subst hav
    rcases hb with hbS | hbv
    · -- path from v: reverse of the unique path to v
      obtain ⟨p, ⟨hp, hpnd⟩, hpuniq⟩ :=
        usp_pendant_to_v hsub hnew hvl hvr hto huS hvS hr'uv husp b hbS
      refine ⟨p.reverse, ⟨IsPathR.reverse hr'sym hp,
        List.nodup_reverse.mpr hpnd⟩, ?_⟩
      rintro q ⟨hq, hqnd⟩
      have hqr : q.reverse = p :=
        hpuniq q.reverse ⟨IsPathR.reverse hr'sym hq,
          List.nodup_reverse.mpr hqnd⟩
      rw [← hqr, List.reverse_reverse]
    · subst hbv
      exact usp_pair_self r' _

/-! ## Effect of one carving step on the open graph -/

/-- Wall symmetry of a cell dictionary: the wall a cell records toward a
neighbour equals the wall the neighbour records back. -/
def SymmCells (cells : Cell → Walls) : Prop :=
  ∀ (c : Cell) (d : Dir),
    wallGet (cells c) d = wallGet (cells (dirDelta d c)) d.opp

theorem dirDelta_inj_dir {d d' : Dir} {c : Cell}
    (h : dirDelta d c = dirDelta d' c) : d = d' := by
  cases d <;> cases d' <;> first
    | rfl
    | (exfalso
       simp only [dirDelta, Prod.ext_iff] at h
       omega)

theorem opp_inj {d d' : Dir} (h : d.opp = d'.opp) : d = d' := by
  cases d <;> cases d' <;> first
    | rfl
    | exact Dir.noConfusion h

theorem clear2_get (cells : Cell → Walls) (u : Cell) (d : Dir) (x : Cell)
    (e : Dir) :
    wallGet (clearWall (clearWall cells u d) (dirDelta d u) d.opp x) e =
      if x = dirDelta d u ∧ e = d.opp then false
      else if x = u ∧ e = d then false
      else wallGet (cells x) e := by
  rw [clearWall_get]
  by_cases hx : x = dirDelta d u ∧ e = d.opp
  · rw [if_pos hx, if_pos hx]
  · rw [if_neg hx, if_neg hx, clearWall_get]

theorem openPair_mk_iff (W H : Int) (cells : Cell → Walls) (a b : Cell) :
    (Maze.mk W H cells).openPair a b ↔
      inRect W H a ∧ inRect W H b ∧
      ∃ d : Dir, b = dirDelta d a ∧ wallGet (cells a) d = false ∧
        wallGet (cells b) d.opp = false :=
  Iff.rfl

theorem not_openPair_allWalls_left (W H : Int) (cells : Cell → Walls)
    (v : Cell) (hw : cells v = allWalls) (x : Cell) :
    ¬ (Maze.mk W H cells).openPair v x := by
  rintro ⟨_, _, e, _, h1, _⟩
  have h1' : wallGet (cells v) e = false := h1
  rw [hw, wallGet_allWalls] at h1'
  exact Bool.noConfusion h1'

theorem not_openPair_allWalls_right (W H : Int) (cells : Cell → Walls)
    (v : Cell) (hw : cells v = allWalls) (x : Cell) :
    ¬ (Maze.mk W H cells).openPair x v := by
  rintro ⟨_, _, e, hbe, _, h2⟩
  have h2' : wallGet (cells v) e.opp = false := h2
  rw [hw, wallGet_allWalls] at h2'
  exact Bool.noConfusion h2'

theorem openPair_clear2 (W H : Int) (cells : Cell → Walls) (u : Cell)
    (d : Dir) (hu : inRect W H u) (hv : inRect W H (dirDelta d u))
    (a b : Cell) :
    (Maze.mk W H
        (clearWall (clearWall cells u d) (dirDelta d u) d.opp)).openPair a b ↔
      (Maze.mk W H cells).openPair a b ∨
      (a = u ∧ b = dirDelta d u) ∨ (a = dirDelta d u ∧ b = u) := by
  constructor
  · rintro ⟨ha, hb, e, hbe, h1, h2⟩
    rw [clear2_get] at h1 h2
    by_cases hc1 : a = dirDelta d u ∧ e = d.opp
    · refine Or.inr (Or.inr ⟨hc1.1, ?_⟩)
      rw [hbe, hc1.1, hc1.2, dirDelta_opp]
    · by_cases hc2 : a = u ∧ e = d
      · refine Or.inr (Or.inl ⟨hc2.1, ?_⟩)
        rw [hbe, hc2.1, hc2.2]
      · rw [if_neg hc1, if_neg hc2] at h1
        by_cases hc3 : b = dirDelta d u ∧ e.opp = d.opp
        · have hed : e = d := opp_inj hc3.2
          refine Or.inr (Or.inl ⟨?_, hc3.1⟩)
          have : a = dirDelta e.opp b := by rw [hbe, dirDelta_opp]
          rw [this, hc3.1, hed, dirDelta_opp]
        · by_cases hc4 : b = u ∧ e.opp = d
          · have hed : e = d.opp := by rw [← hc4.2, Dir.opp_opp]
            refine Or.inr (Or.inr ⟨?_, hc4.1⟩)
            have : a = dirDelta e.opp b := by rw [hbe, dirDelta_opp]
            rw [this, hc4.1, hed, Dir.opp_opp]
          · rw [if_neg hc3, if_neg hc4] at h2
            exact Or.inl ⟨ha, hb, e, hbe, h1, h2⟩
  · have hmono : ∀ x e, wallGet (cells x) e = false →
        wallGet (clearWall (clearWall cells u d) (dirDelta d u) d.opp x) e
          = false := by
      intro x e hx
      rw [clear2_get]
      split
      · rfl
      · split
        · rfl
        · exact hx
    rintro (⟨ha, hb, e, hbe, h1, h2⟩ | ⟨hau, hbv⟩ | ⟨hav, hbu⟩)
    · exact ⟨ha, hb, e, hbe, hmono a e h1, hmono b e.opp h2⟩
    · subst hau
      subst hbv
      refine ⟨hu, hv, d, rfl, ?_, ?_⟩
      · rw [clear2_get]
        have hne : ¬(a = dirDelta d a ∧ d = d.opp) := by
          intro hcon
          exact dirDelta_ne d a hcon.1.symm
        rw [if_neg hne, if_pos ⟨rfl, rfl⟩]
      · rw [clear2_get]
        rw [if_pos ⟨rfl, rfl⟩]
    · subst hav
      subst hbu
      refine ⟨hv, hu, d.opp, ?_, ?_, ?_⟩
      · rw [dirDelta_opp]
      · rw [clear2_get]
        rw [if_pos ⟨rfl, rfl⟩]
      · rw [clear2_get, Dir.opp_opp]
        have hne : ¬(b = dirDelta d b ∧ d = d.opp) := by
          intro hcon
          exact dirDelta_ne d b hcon.1.symm
        rw [if_neg hne, if_pos ⟨rfl, rfl⟩]

theorem symm_clear2 (cells : Cell → Walls) (u : Cell) (d : Dir)
    (hsym : SymmCells cells) :
    SymmCells (clearWall (clearWall cells u d) (dirDelta d u) d.opp) := by
  intro c e
  rw [clear2_get, clear2_get]
  by_cases hc1 : c = dirDelta d u ∧ e = d.opp
  · rw [if_pos hc1]
    have h1 : dirDelta e c = u := by
      rw [hc1.1, hc1.2, dirDelta_opp]
    have h2 : ¬(dirDelta e c = dirDelta d u ∧ e.opp = d.opp) := by
      intro hcon
      have : e = d := opp_inj hcon.2
      rw [hc1.2] at this
      cases d <;> exact Dir.noConfusion this
    rw [if_neg h2, if_pos ⟨h1, by rw [hc1.2, Dir.opp_opp]⟩]
  · by_cases hc2 : c = u ∧ e = d
    · rw [if_neg hc1, if_pos hc2]
      have h1 : dirDelta e c = dirDelta d u := by rw [hc2.1, hc2.2]
      rw [if_pos ⟨h1, by rw [hc2.2]⟩]
    · rw [if_neg hc1, if_neg hc2]
      have h3 : ¬(dirDelta e c = dirDelta d u ∧ e.opp = d.opp) := by
        rintro ⟨hx, hy⟩
        have hed : e = d := opp_inj hy
        refine hc2 ⟨?_, hed⟩
        have h5 := congrArg (dirDelta e.opp) hx
        rw [dirDelta_opp] at h5
        rw [hed, dirDelta_opp] at h5
        exact h5
      have h4 : ¬(dirDelta e c = u ∧ e.opp = d) := by
        rintro ⟨hx, hy⟩
        have hed : e = d.opp := by rw [← hy, Dir.opp_opp]
        refine hc1 ⟨?_, hed⟩
        have h5 := congrArg (dirDelta e.opp) hx
        rw [dirDelta_opp] at h5
        rw [hed, Dir.opp_opp] at h5
        exact h5
      rw [if_neg h3, if_neg h4]
      exact hsym c e

/-! ## Counting open edges -/

theorem sum_map_succ_at {α : Type} [DecidableEq α] :
    ∀ (l : List α) (f g : α → Nat) (w : α), l.Nodup → w ∈ l →
      (∀ x ∈ l, x ≠ w → f x = g x) → g w = f w + 1 →
      (l.map g).sum = (l.map f).sum + 1 := by
  intro l
  induction l with
  | nil => intro f g w _ hw; exact absurd hw (List.not_mem_nil w)
  | cons x xs ih =>
    intro f g w hnd hw hfg hwval
    rcases List.mem_cons.mp hw with hx | hx
    · subst hx
      have hrest : xs.map g = xs.map f := by
        refine List.map_congr_left ?_
        intro a ha
        have haw : a ≠ w := by
          intro hcon
          rw [List.nodup_cons] at hnd
          exact hnd.1 (hcon ▸ ha)
        exact (hfg a (List.mem_cons_of_mem _ ha) haw).symm
      simp only [List.map_cons, List.sum_cons, hrest, hwval]
      omega
    · have hxw : x ≠ w := by
        intro hcon
        rw [List.nodup_cons] at hnd
        exact hnd.1 (hcon ▸ hx)
      have hx' : f x = g x := hfg x (List.mem_cons_self x xs) hxw
      have := ih f g w (List.nodup_cons.mp hnd).2 hx
        (fun a ha haw => hfg a (List.mem_cons_of_mem x ha) haw) hwval
      simp only [List.map_cons, List.sum_cons, this, hx']
      omega

theorem openPair_delta_iff (m : Maze) (a : Cell) (t : Dir) :
    m.openPair a (dirDelta t a) ↔
      m.InBounds a ∧ m.InBounds (dirDelta t a) ∧
      wallGet (m.cells a) t = false ∧
      wallGet (m.cells (dirDelta t a)) t.opp = false := by
  constructor
  · rintro ⟨ha, hb, t', hbt, h1, h2⟩
    have htt : t' = t := dirDelta_inj_dir hbt.symm
    subst htt
    exact ⟨ha, hb, h1, hbt ▸ h2⟩
  · rintro ⟨ha, hb, h1, h2⟩
    exact ⟨ha, hb, t, rfl, h1, h2⟩

theorem openPair_clear2_slot_unchanged (W H : Int) (cells : Cell → Walls)
    (u : Cell) (d : Dir) (hu : inRect W H u) (hv : inRect W H (dirDelta d u))
    (c : Cell) (t : Dir)
    (h1 : ¬(c = u ∧ dirDelta t c = dirDelta d u))
    (h2 : ¬(c = dirDelta d u ∧ dirDelta t c = u)) :
    ((Maze.mk W H
        (clearWall (clearWall cells u d) (dirDelta d u) d.opp)).openPair
          c (dirDelta t c) ↔
      (Maze.mk W H cells).openPair c (dirDelta t c)) := by
  rw [openPair_clear2 W H cells u d hu hv]
  refine or_iff_left ?_
  rintro (h | h)
  · exact h1 h
  · exact h2 h

theorem edgeCount_of_mk (W H : Int) (cells : Cell → Walls) :
    openEdgeCount (Maze.mk W H cells) =
      ((cellList W H).map fun c =>
        (if (Maze.mk W H cells).openPair c (dirDelta Dir.e c) then 1 else 0) +
        (if (Maze.mk W H cells).openPair c (dirDelta Dir.s c) then 1 else 0)
        ).sum := rfl

theorem edgeCount_clear2 (W H : Int) (cells : Cell → Walls) (u : Cell)
    (d : Dir) (hu : inRect W H u) (hv : inRect W H (dirDelta d u))
    (hwall : wallGet (cells (dirDelta d u)) d.opp = true) :
    openEdgeCount (Maze.mk W H
        (clearWall (clearWall cells u d) (dirDelta d u) d.opp)) =
      openEdgeCount (Maze.mk W H cells) + 1 := by
  cases d with
  | e =>
    rw [edgeCount_of_mk, edgeCount_of_mk]
    refine sum_map_succ_at (cellList W H) _ _ u (cellList_nodup W H)
      ((mem_cellList W H u).mpr hu) ?_ ?_
    · intro c hc hcu
      have he := openPair_clear2_slot_unchanged W H cells u Dir.e hu hv c Dir.e
        (by rintro ⟨rfl, _⟩; exact hcu rfl)
        (by rintro ⟨rfl, h2⟩; simp only [dirDelta, Prod.ext_iff] at h2; omega)
      have hs := openPair_clear2_slot_unchanged W H cells u Dir.e hu hv c Dir.s
        (by rintro ⟨rfl, h2⟩; simp only [dirDelta, Prod.ext_iff] at h2; omega)
        (by rintro ⟨rfl, h2⟩; simp only [dirDelta, Prod.ext_iff] at h2; omega)
      simp only [he, hs]
    · have haft : (Maze.mk W H (clearWall (clearWall cells u Dir.e)
          (dirDelta Dir.e u) Dir.e.opp)).openPair u (dirDelta Dir.e u) := by
        rw [openPair_clear2 W H cells u Dir.e hu hv]
        exact Or.inr (Or.inl ⟨rfl, rfl⟩)
      have hbef : ¬ (Maze.mk W H cells).openPair u (dirDelta Dir.e u) := by
        rw [openPair_delta_iff]
        rintro ⟨-, -, -, h4⟩
        have h4' : wallGet (cells (dirDelta Dir.e u)) Dir.e.opp = false := h4
        rw [hwall] at h4'
        exact Bool.noConfusion h4'
      have hs := openPair_clear2_slot_unchanged W H cells u Dir.e hu hv u Dir.s
        (by rintro ⟨-, h2⟩; simp only [dirDelta, Prod.ext_iff] at h2; omega)
        (by rintro ⟨h1, -⟩; simp only [dirDelta, Prod.ext_iff] at h1; omega)
      simp only [hs, if_pos haft, if_neg hbef]
      omega
  | s =>
    rw [edgeCount_of_mk, edgeCount_of_mk]
    refine sum_map_succ_at (cellList W H) _ _ u (cellList_nodup W H)
      ((mem_cellList W H u).mpr hu) ?_ ?_
    · intro c hc hcu
      have he := openPair_clear2_slot_unchanged W H cells u Dir.s hu hv c Dir.e
        (by rintro ⟨rfl, h2⟩; simp only [dirDelta, Prod.ext_iff] at h2; omega)
        (by rintro ⟨rfl, h2⟩; simp only [dirDelta, Prod.ext_iff] at h2; omega)
      have hs := openPair_clear2_slot_unchanged W H cells u Dir.s hu hv c Dir.s
        (by rintro ⟨rfl, -⟩; exact hcu rfl)
        (by rintro ⟨rfl, h2⟩; simp only [dirDelta, Prod.ext_iff] at h2; omega)
      simp only [he, hs]
    · have haft : (Maze.mk W H (clearWall (clearWall cells u Dir.s)
          (dirDelta Dir.s u) Dir.s.opp)).openPair u (dirDelta Dir.s u) := by
        rw [openPair_clear2 W H cells u Dir.s hu hv]
        exact Or.inr (Or.inl ⟨rfl, rfl⟩)
      have hbef : ¬ (Maze.mk W H cells).openPair u (dirDelta Dir.s u) := by
        rw [openPair_delta_iff]
        rintro ⟨-, -, -, h4⟩
        have h4' : wallGet (cells (dirDelta Dir.s u)) Dir.s.opp = false := h4
        rw [hwall] at h4'
        exact Bool.noConfusion h4'
      have he := openPair_clear2_slot_unchanged W H cells u Dir.s hu hv u Dir.e
        (by rintro ⟨-, h2⟩; simp only [dirDelta, Prod.ext_iff] at h2; omega)
        (by rintro ⟨h1, -⟩; simp only [dirDelta, Prod.ext_iff] at h1; omega)
      simp only [he, if_pos haft, if_neg hbef]
  | w =>
    rw [edgeCount_of_mk, edgeCount_of_mk]
    refine sum_map_succ_at (cellList W H) _ _ (dirDelta Dir.w u)
      (cellList_nodup W H) ((mem_cellList W H _).mpr hv) ?_ ?_
    · intro c hc hcw
      have he := openPair_clear2_slot_unchanged W H cells u Dir.w hu hv c Dir.e
        (by rintro ⟨rfl, h2⟩; simp only [dirDelta, Prod.ext_iff] at h2; omega)
        (by rintro ⟨rfl, -⟩; exact hcw rfl)
      have hs := openPair_clear2_slot_unchanged W H cells u Dir.w hu hv c Dir.s
        (by rintro ⟨rfl, h2⟩; simp only [dirDelta, Prod.ext_iff] at h2; omega)
        (by rintro ⟨rfl, h2⟩; simp only [dirDelta, Prod.ext_iff] at h2; omega)
      simp only [he, hs]
    · have heq : dirDelta Dir.e (dirDelta Dir.w u) = u := dirDelta_opp Dir.w u
      have haft : (Maze.mk W H (clearWall (clearWall cells u Dir.w)
          (dirDelta Dir.w u) Dir.w.opp)).openPair (dirDelta Dir.w u)
            (dirDelta Dir.e (dirDelta Dir.w u)) := by
        rw [openPair_clear2 W H cells u Dir.w hu hv]
        exact Or.inr (Or.inr ⟨rfl, heq⟩)
      have hbef : ¬ (Maze.mk W H cells).openPair (dirDelta Dir.w u)
          (dirDelta Dir.e (dirDelta Dir.w u)) := by
        rw [openPair_delta_iff]
        rintro ⟨-, -, h3, -⟩
        have h3' : wallGet (cells (dirDelta Dir.w u)) Dir.e = false := h3
        have hwall' : wallGet (cells (dirDelta Dir.w u)) Dir.e = true := hwall
        rw [hwall'] at h3'
        exact Bool.noConfusion h3'
      have hs := openPair_clear2_slot_unchanged W H cells u Dir.w hu hv
        (dirDelta Dir.w u) Dir.s
        (by rintro ⟨h1, -⟩; simp only [dirDelta, Prod.ext_iff] at h1; omega)
        (by rintro ⟨-, h2⟩; simp only [dirDelta, Prod.ext_iff] at h2; omega)
      simp only [hs, if_pos haft, if_neg hbef]
      omega
  | n =>
    rw [edgeCount_of_mk, edgeCount_of_mk]
    refine sum_map_succ_at (cellList W H) _ _ (dirDelta Dir.n u)
      (cellList_nodup W H) ((mem_cellList W H _).mpr hv) ?_ ?_
    · intro c hc hcw
      have he := openPair_clear2_slot_unchanged W H cells u Dir.n hu hv c Dir.e
        (by rintro ⟨rfl, h2⟩; simp only [dirDelta, Prod.ext_iff] at h2; omega)
        (by rintro ⟨rfl, -⟩; exact hcw rfl)
      have hs := openPair_clear2_slot_unchanged W H cells u Dir.n hu hv c Dir.s
        (by rintro ⟨rfl, h2⟩; simp only [dirDelta, Prod.ext_iff] at h2; omega)
        (by rintro ⟨rfl, -⟩; exact hcw rfl)
      simp only [he, hs]
    · have heq : dirDelta Dir.s (dirDelta Dir.n u) = u := dirDelta_opp Dir.n u
      have haft : (Maze.mk W H (clearWall (clearWall cells u Dir.n)
          (dirDelta Dir.n u) Dir.n.opp)).openPair (dirDelta Dir.n u)
            (dirDelta Dir.s (dirDelta Dir.n u)) := by
        rw [openPair_clear2 W H cells u Dir.n hu hv]
        exact Or.inr (Or.inr ⟨rfl, heq⟩)
      have hbef : ¬ (Maze.mk W H cells).openPair (dirDelta Dir.n u)
          (dirDelta Dir.s (dirDelta Dir.n u)) := by
        rw [openPair_delta_iff]
        rintro ⟨-, -, h3, -⟩
        have h3' : wallGet (cells (dirDelta Dir.n u)) Dir.s = false := h3
        have hwall' : wallGet (cells (dirDelta Dir.n u)) Dir.s = true := hwall
        rw [hwall'] at h3'
        exact Bool.noConfusion h3'
      have he := openPair_clear2_slot_unchanged W H cells u Dir.n hu hv
        (dirDelta Dir.n u) Dir.e
        (by rintro ⟨h1, -⟩; simp only [dirDelta, Prod.ext_iff] at h1; omega)
        (by rintro ⟨-, h2⟩; simp only [dirDelta, Prod.ext_iff] at h2; omega)
      simp only [he, if_pos haft, if_neg hbef]

/-! ## The generation invariant -/

theorem Maze.openPair_symm {m : Maze} {a b : Cell} (h : m.openPair a b) :
    m.openPair b a := by
  obtain ⟨ha, hb, d, hbd, h1, h2⟩ := h
  refine ⟨hb, ha, d.opp, ?_, ?_, ?_⟩
  · rw [hbd, dirDelta_opp]
  · exact h2
  · rw [Dir.opp_opp]
    exact h1

theorem mem_cand {c : Cell} {p : Cell × Dir × Dir} (h : p ∈ cand c) :
    ∃ d : Dir, p = (dirDelta d c, d, d.opp) := by
  simp only [cand, List.mem_cons, List.not_mem_nil, or_false] at h
  rcases h with h | h | h | h
  · exact ⟨Dir.n, h⟩
  · exact ⟨Dir.s, h⟩
  · exact ⟨Dir.e, h⟩
  · exact ⟨Dir.w, h⟩

/-- The full loop invariant of `_generate`: the visited cells form the
vertex set of the growing tree, the stack holds the active branch, every
unvisited cell is still fully walled, walls are symmetric, the open-edge
count is one less than the number of visited cells, and the open graph has
a unique simple path between any two visited cells.  The `closed` field
records that a cell is popped only when all its in-bounds neighbours are
visited. -/
structure GenInv (W H : Int) (st : GenState) : Prop where
  vis_nodup : st.visited.Nodup
  start_mem : ((0 : Int), (0 : Int)) ∈ st.visited
  vis_inb : ∀ c ∈ st.visited, inRect W H c
  stack_nodup : st.stack.Nodup
  stack_sub : ∀ c ∈ st.stack, c ∈ st.visited
  closed : ∀ c ∈ st.visited, c ∉ st.stack → ∀ d : Dir,
    inRect W H (dirDelta d c) → dirDelta d c ∈ st.visited
  fresh : ∀ c, c ∉ st.visited → st.cells c = allWalls
  symm : SymmCells st.cells
  count : openEdgeCount (Maze.mk W H st.cells) + 1 = st.visited.length
  usp : ∀ a b, a ∈ st.visited → b ∈ st.visited →
    ∃! p, IsPathR (Maze.mk W H st.cells).openPair p a b ∧ p.Nodup

theorem genInv_init (W H : Int) (hW : 1 ≤ W) (hH : 1 ≤ H) :
    GenInv W H genInit := by
  refine ⟨?_, ?_, ?_, ?_, ?_, ?_, ?_, ?_, ?_, ?_⟩
  · exact List.nodup_singleton _
  · exact List.mem_singleton.mpr rfl
  · intro c hc
    simp only [genInit, List.mem_singleton] at hc
    subst hc
    exact ⟨le_refl 0, hW, le_refl 0, hH⟩
  · exact List.nodup_singleton _
  · intro c hc
    exact hc
  · intro c hc hcs
    exact absurd hc hcs
  · intro c _
    rfl
  · intro c d
    show wallGet allWalls d = wallGet allWalls d.opp
    rw [wallGet_allWalls, wallGet_allWalls]
  · have hzero : openEdgeCount (Maze.mk W H genInit.cells) = 0 := by
      rw [edgeCount_of_mk]
      refine List.sum_eq_zero ?_
      intro x hx
      rw [List.mem_map] at hx
      obtain ⟨c, _, hc⟩ := hx
      rw [← hc, if_neg (not_openPair_allWalls_left W H genInit.cells c rfl _),
        if_neg (not_openPair_allWalls_left W H genInit.cells c rfl _)]
      rfl
    rw [hzero]
    rfl
  · intro a b ha hb
    simp only [genInit, List.mem_singleton] at ha hb
    subst ha
    subst hb
    exact usp_pair_self _ _

theorem genStep_pop (W H : Int) (pick : Nat → Nat) (cells : Cell → Walls)
    (visited : List Cell) (t : Nat) (current : Cell) (rest : List Cell)
    (hemp : ((cand current).filter
      (fun p => decide (inRect W H p.1 ∧ p.1 ∉ visited))).isEmpty = true) :
    genStep W H pick ⟨cells, current :: rest, visited, t⟩ =
      ⟨cells, rest, visited, t⟩ := by
  unfold genStep
  simp only [hemp, if_true]

theorem genStep_choice (W H : Int) (pick : Nat → Nat) (cells : Cell → Walls)
    (visited : List Cell) (t : Nat) (current : Cell) (rest : List Cell)
    (hemp : ((cand current).filter
      (fun p => decide (inRect W H p.1 ∧ p.1 ∉ visited))).isEmpty = false) :
    genStep W H pick ⟨cells, current :: rest, visited, t⟩ =
      (fun chosen =>
        (⟨clearWall (clearWall cells current chosen.2.1) chosen.1 chosen.2.2,
          chosen.1 :: current :: rest, chosen.1 :: visited, t + 1⟩ : GenState))
        (((cand current).filter
            (fun p => decide (inRect W H p.1 ∧ p.1 ∉ visited))).getD
          (pick t % ((cand current).filter
            (fun p => decide (inRect W H p.1 ∧ p.1 ∉ visited))).length)
          ((0, 0), Dir.n, Dir.n)) := by
  unfold genStep
  simp only [hemp, Bool.false_eq_true, if_false]

theorem cand_mem_dir (c : Cell) (d : Dir) :
    (dirDelta d c, d, d.opp) ∈ cand c := by
  cases d
  · exact List.mem_cons_self _ _
  · exact List.mem_cons_of_mem _ (List.mem_cons_self _ _)
  · exact List.mem_cons_of_mem _ (List.mem_cons_of_mem _
      (List.mem_cons_self _ _))
  · exact List.mem_cons_of_mem _ (List.mem_cons_of_mem _
      (List.mem_cons_of_mem _ (List.mem_cons_self _ _)))

theorem genInv_step (W H : Int) (pick : Nat → Nat) (st : GenState)
    (h : GenInv W H st) : GenInv W H (genStep W H pick st) := by
  obtain ⟨cells0, stack0, visited0, t0⟩ := st
  cases stack0 with
  | nil => exact h
  | cons current rest =>
    obtain ⟨hnd, hstart, hinb, hsnd, hssub, hcl, hfr, hsy, hcnt, husp⟩ := h
    cases hemp : ((cand current).filter
        (fun p => decide (inRect W H p.1 ∧ p.1 ∉ visited0))).isEmpty with
    | true =>
      rw [genStep_pop W H pick cells0 visited0 t0 current rest hemp]
      refine ⟨hnd, hstart, hinb, ?_, ?_, ?_, hfr, hsy, hcnt, husp⟩
      · exact (List.nodup_cons.mp hsnd).2
      · intro c hc
        exact hssub c (List.mem_cons_of_mem current hc)
      · intro c hc hcs d hrect
        rcases eq_or_ne c current with hceq | hcne
        · subst hceq
          have hall := List.isEmpty_iff.mp hemp
          have hnone := List.filter_eq_nil_iff.mp hall
          have hnp := hnone _ (cand_mem_dir c d)
          simp only [decide_eq_true_eq] at hnp
          by_contra hnv
          exact hnp ⟨hrect, hnv⟩
        · refine hcl c hc ?_ d hrect
          intro hcon
          rcases List.mem_cons.mp hcon with h1 | h1
          · exact hcne h1
          · exact hcs h1
    | false =>
      rw [genStep_choice W H pick cells0 visited0 t0 current rest hemp]
      have hne : ((cand current).filter
          (fun p => decide (inRect W H p.1 ∧ p.1 ∉ visited0))) ≠ [] := by
        intro hcon
        rw [hcon] at hemp
        exact Bool.noConfusion hemp
      have hlen : 0 < ((cand current).filter
          (fun p => decide (inRect W H p.1 ∧ p.1 ∉ visited0))).length :=
        List.length_pos.mpr hne
      have hilt : pick t0 % ((cand current).filter
          (fun p => decide (inRect W H p.1 ∧ p.1 ∉ visited0))).length <
          ((cand current).filter
            (fun p => decide (inRect W H p.1 ∧ p.1 ∉ visited0))).length :=
        Nat.mod_lt _ hlen
      have hmemn : ((cand current).filter
          (fun p => decide (inRect W H p.1 ∧ p.1 ∉ visited0))).getD
            (pick t0 % ((cand current).filter
              (fun p => decide (inRect W H p.1 ∧ p.1 ∉ visited0))).length)
            ((0, 0), Dir.n, Dir.n) ∈
          (cand current).filter
            (fun p => decide (inRect W H p.1 ∧ p.1 ∉ visited0)) := by
        rw [List.getD_eq_getElem _ _ hilt]
        exact List.getElem_mem hilt
      have hfilt := List.mem_filter.mp hmemn
      obtain ⟨d, hd⟩ := mem_cand hfilt.1
      have hprops := of_decide_eq_true hfilt.2
      rw [hd] at hprops
      have hv_inb : inRect W H (dirDelta d current) := hprops.1
      have hv_new : dirDelta d current ∉ visited0 := hprops.2
      rw [hd]
      have hcur_vis : current ∈ visited0 :=
        hssub current (List.mem_cons_self _ _)
      have hcur_inb : inRect W H current := hinb current hcur_vis
      have hv_fresh : cells0 (dirDelta d current) = allWalls := hfr _ hv_new
      have hwall_v : wallGet (cells0 (dirDelta d current)) d.opp = true := by
        rw [hv_fresh, wallGet_allWalls]
      have hvne : dirDelta d current ≠ current := dirDelta_ne d current
      refine ⟨?_, ?_, ?_, ?_, ?_, ?_, ?_, ?_, ?_, ?_⟩
      · exact List.nodup_cons.mpr ⟨hv_new, hnd⟩
      · exact List.mem_cons_of_mem _ hstart
      · intro c hc
        rcases List.mem_cons.mp hc with rfl | hc
        · exact hv_inb
        · exact hinb c hc
      · refine List.nodup_cons.mpr ⟨?_, hsnd⟩
        intro hcon
        exact hv_new (hssub _ hcon)
      · intro c hc
        rcases List.mem_cons.mp hc with rfl | hc
        · exact List.mem_cons_self _ _
        · exact List.mem_cons_of_mem _ (hssub c hc)
      · intro c hc hcs d' hrect
        have hcnev : c ≠ dirDelta d current := by
          intro hcon
          exact hcs (hcon ▸ List.mem_cons_self _ _)
        have hcvis : c ∈ visited0 := by
          rcases List.mem_cons.mp hc with h1 | h1
          · exact absurd h1 hcnev
          · exact h1
        have hcold : c ∉ current :: rest := by
          intro hcon
          exact hcs (List.mem_cons_of_mem _ hcon)
        exact List.mem_cons_of_mem _ (hcl c hcvis hcold d' hrect)
      · intro c hc
        have hcnev : c ≠ dirDelta d current := fun hcon =>
          hc (hcon ▸ List.mem_cons_self _ _)
        have hcold : c ∉ visited0 := fun hcon =>
          hc (List.mem_cons_of_mem _ hcon)
        have hcnecur : c ≠ current := fun hcon => hcold (hcon ▸ hcur_vis)
        show clearWall (clearWall cells0 current d) (dirDelta d current)
          d.opp c = allWalls
        unfold clearWall
        rw [if_neg hcnev, if_neg hcnecur]
        exact hfr c hcold
      · exact symm_clear2 cells0 current d hsy
      · have hedge := edgeCount_clear2 W H cells0 current d hcur_inb hv_inb
          hwall_v
        show openEdgeCount (Maze.mk W H (clearWall (clearWall cells0 current d)
          (dirDelta d current) d.opp)) + 1 =
            (dirDelta d current :: visited0).length
        rw [hedge, List.length_cons, ← hcnt]
      · intro a b ha hb
        have hub := @usp_pendant
          ((Maze.mk W H cells0).openPair)
          ((Maze.mk W H (clearWall (clearWall cells0 current d)
            (dirDelta d current) d.opp)).openPair)
          (fun c => c ∈ visited0)
          current (dirDelta d current)
          (fun x y hxy => Maze.openPair_symm hxy)
          (fun x y hxy =>
            (openPair_clear2 W H cells0 current d hcur_inb hv_inb x y).mpr
              (Or.inl hxy))
          (fun x y hxy =>
            (openPair_clear2 W H cells0 current d hcur_inb hv_inb x y).mp hxy)
          (not_openPair_allWalls_left W H cells0 _ hv_fresh)
          (not_openPair_allWalls_right W H cells0 _ hv_fresh)
          hvne.symm hcur_vis hv_new
          ((openPair_clear2 W H cells0 current d hcur_inb hv_inb _ _).mpr
            (Or.inr (Or.inl ⟨rfl, rfl⟩)))
          ((openPair_clear2 W H cells0 current d hcur_inb hv_inb _ _).mpr
            (Or.inr (Or.inr ⟨rfl, rfl⟩)))
          (fun a b ha hb => husp a b ha hb)
        refine hub a b ?_ ?_
        · rcases List.mem_cons.mp ha with h1 | h1
          · exact Or.inr h1
          · exact Or.inl h1
        · rcases List.mem_cons.mp hb with h1 | h1
          · exact Or.inr h1
          · exact Or.inl h1

theorem genInv_loop (W H : Int) (pick : Nat → Nat) :
    ∀ (fuel : Nat) (st : GenState), GenInv W H st →
      GenInv W H (genLoop W H pick fuel st) := by
  intro fuel
  induction fuel with
  | zero => intro st h; exact h
  | succ n ih =>
    intro st h
    rw [genLoop]
    split
    · exact h
    · exact ih _ (genInv_step W H pick st h)

theorem countP_not_mem_cons (l : List Cell) (visited : List Cell) (v : Cell)
    (hnd : l.Nodup) (hv : v ∈ l) (hnew : v ∉ visited) :
    l.countP (fun c => decide (c ∉ visited)) =
      l.countP (fun c => decide (c ∉ v :: visited)) + 1 := by
  induction l with
  | nil => exact absurd hv (List.not_mem_nil v)
  | cons x xs ih =>
    rw [List.countP_cons, List.countP_cons]
    rcases List.mem_cons.mp hv with hx | hx
    · subst hx
      have hrest : xs.countP (fun c => decide (c ∉ visited)) =
          xs.countP (fun c => decide (c ∉ v :: visited)) := by
        refine List.countP_congr ?_
        intro c hc
        have hcv : c ≠ v := by
          intro hcon
          rw [List.nodup_cons] at hnd
          exact hnd.1 (hcon ▸ hc)
        simp only [decide_eq_true_eq, List.mem_cons]
        constructor
        · intro h1 h2
          rcases h2 with h2 | h2
          · exact hcv h2
          · exact h1 h2
        · intro h1 h2
          exact h1 (Or.inr h2)
      rw [hrest]
      have h1 : decide (v ∉ visited) = true := decide_eq_true hnew
      have h2 : decide (v ∉ v :: visited) = false := by
        simp only [decide_eq_false_iff_not, Decidable.not_not]
        exact List.mem_cons_self _ _
      rw [h1, h2]
      simp
    · have hxv : x ≠ v := by
        intro hcon
        rw [List.nodup_cons] at hnd
        exact hnd.1 (hcon ▸ hx)
      have hsame : decide (x ∉ visited) = decide (x ∉ v :: visited) := by
        simp only [decide_eq_decide, List.mem_cons]
        constructor
        · intro h1 h2
          rcases h2 with h2 | h2
          · exact hxv h2
          · exact h1 h2
        · intro h1 h2
          exact h1 (Or.inr h2)
      rw [ih (List.nodup_cons.mp hnd).2 hx, hsame]
      omega

theorem genStep_measure (W H : Int) (pick : Nat → Nat) (st : GenState)
    (h : GenInv W H st) (hst : st.stack ≠ []) :
    2 * ((cellList W H).countP
        (fun c => decide (c ∉ (genStep W H pick st).visited))) +
      (genStep W H pick st).stack.length + 1 ≤
    2 * ((cellList W H).countP (fun c => decide (c ∉ st.visited))) +
      st.stack.length := by
  obtain ⟨cells0, stack0, visited0, t0⟩ := st
  cases stack0 with
  | nil => exact absurd rfl hst
  | cons current rest =>
    obtain ⟨hnd, hstart, hinb, hsnd, hssub, hcl, hfr, hsy, hcnt, husp⟩ := h
    cases hemp : ((cand current).filter
        (fun p => decide (inRect W H p.1 ∧ p.1 ∉ visited0))).isEmpty with
    | true =>
      rw [genStep_pop W H pick cells0 visited0 t0 current rest hemp]
      simp only [List.length_cons]
      omega
    | false =>
      rw [genStep_choice W H pick cells0 visited0 t0 current rest hemp]
      have hne : ((cand current).filter
          (fun p => decide (inRect W H p.1 ∧ p.1 ∉ visited0))) ≠ [] := by
        intro hcon
        rw [hcon] at hemp
        exact Bool.noConfusion hemp
      have hlen : 0 < ((cand current).filter
          (fun p => decide (inRect W H p.1 ∧ p.1 ∉ visited0))).length :=
        List.length_pos.mpr hne
      have hilt : pick t0 % ((cand current).filter
          (fun p => decide (inRect W H p.1 ∧ p.1 ∉ visited0))).length <
          ((cand current).filter
            (fun p => decide (inRect W H p.1 ∧ p.1 ∉ visited0))).length :=
        Nat.mod_lt _ hlen
      have hmemn : ((cand current).filter
          (fun p => decide (inRect W H p.1 ∧ p.1 ∉ visited0))).getD
            (pick t0 % ((cand current).filter
              (fun p => decide (inRect W H p.1 ∧ p.1 ∉ visited0))).length)
            ((0, 0), Dir.n, Dir.n) ∈
          (cand current).filter
            (fun p => decide (inRect W H p.1 ∧ p.1 ∉ visited0)) := by
        rw [List.getD_eq_getElem _ _ hilt]
        exact List.getElem_mem hilt
      have hfilt := List.mem_filter.mp hmemn
      obtain ⟨d, hd⟩ := mem_cand hfilt.1
      have hprops := of_decide_eq_true hfilt.2
      rw [hd] at hprops
      have hv_inb : inRect W H (dirDelta d current) := hprops.1
      have hv_new : dirDelta d current ∉ visited0 := hprops.2
      rw [hd]
      have hcount := countP_not_mem_cons (cellList W H) visited0
        (dirDelta d current) (cellList_nodup W H)
        ((mem_cellList W H _).mpr hv_inb) hv_new
      show 2 * ((cellList W H).countP
          (fun c => decide (c ∉ dirDelta d current :: visited0))) +
        (dirDelta d current :: current :: rest).length + 1 ≤
        2 * ((cellList W H).countP (fun c => decide (c ∉ visited0))) +
        (current :: rest).length
      simp only [List.length_cons]
      omega

theorem genLoop_stack_empty (W H : Int) (pick : Nat → Nat) :
    ∀ (fuel : Nat) (st : GenState), GenInv W H st →
      2 * ((cellList W H).countP (fun c => decide (c ∉ st.visited))) +
        st.stack.length < fuel →
      (genLoop W H pick fuel st).stack = [] := by
  intro fuel
  induction fuel with
  | zero => intro st _ hm; exact absurd hm (Nat.not_lt_zero _)
  | succ n ih =>
    intro st h hm
    rw [genLoop]
    split
    · next hcond => exact List.isEmpty_iff.mp hcond
    · next hcond =>
      have hne : st.stack ≠ [] := by
        intro hcon
        exact hcond (by rw [hcon]; rfl)
      refine ih _ (genInv_step W H pick st h) ?_
      have := genStep_measure W H pick st h hne
      omega

theorem genInv_coverage (W H : Int) (st : GenState) (h : GenInv W H st)
    (hempty : st.stack = []) : ∀ c : Cell, inRect W H c → c ∈ st.visited := by
  suffices hsuf : ∀ n : Nat, ∀ x y : Int, 0 ≤ x → x < W → 0 ≤ y → y < H →
      (x + y).toNat = n → (x, y) ∈ st.visited by
    rintro ⟨x, y⟩ hc
    exact hsuf (x + y).toNat x y hc.1 hc.2.1 hc.2.2.1 hc.2.2.2 rfl
  intro n
  induction n using Nat.strong_induction_on with
  | _ n ih =>
    intro x y hx hxw hy hyh hn
    rcases eq_or_ne x 0 with hx0 | hx0
    · rcases eq_or_ne y 0 with hy0 | hy0
      · subst hx0
        subst hy0
        exact h.start_mem
      · have hprev : (x, y - 1) ∈ st.visited :=
          ih (x + (y - 1)).toNat (by omega) x (y - 1) hx hxw (by omega)
            (by omega) rfl
        have hxy : dirDelta Dir.s (x, y - 1) = (x, y) := by
          rw [Prod.ext_iff]
          refine ⟨rfl, ?_⟩
          show y - 1 + 1 = y
          omega
        have hrect : inRect W H (dirDelta Dir.s (x, y - 1)) := by
          rw [hxy]
          exact ⟨hx, hxw, hy, hyh⟩
        have := h.closed (x, y - 1) hprev
          (by rw [hempty]; exact List.not_mem_nil _) Dir.s hrect
        rwa [hxy] at this
    · have hprev : (x - 1, y) ∈ st.visited :=
        ih ((x - 1) + y).toNat (by omega) (x - 1) y (by omega) (by omega) hy
          hyh rfl
      have hxy : dirDelta Dir.e (x - 1, y) = (x, y) := by
        rw [Prod.ext_iff]
        refine ⟨?_, rfl⟩
        show x - 1 + 1 = x
        omega
      have hrect : inRect W H (dirDelta Dir.e (x - 1, y)) := by
        rw [hxy]
        exact ⟨hx, hxw, hy, hyh⟩
      have := h.closed (x - 1, y) hprev
        (by rw [hempty]; exact List.not_mem_nil _) Dir.e hrect
      rwa [hxy] at this

theorem genInv_visited_perm (W H : Int) (st : GenState) (h : GenInv W H st)
    (hempty : st.stack = []) : st.visited.Perm (cellList W H) := by
  refine (List.perm_ext_iff_of_nodup h.vis_nodup (cellList_nodup W H)).mpr ?_
  intro c
  constructor
  · intro hc
    exact (mem_cellList W H c).mpr (h.vis_inb c hc)
  · intro hc
    exact genInv_coverage W H st h hempty c ((mem_cellList W H c).mp hc)

theorem create_inv (W H : Int) (pick : Nat → Nat) (hW : 1 ≤ W)
    (hH : 1 ≤ H) :
    GenInv W H (genLoop W H pick (genFuel W H) genInit) ∧
      (genLoop W H pick (genFuel W H) genInit).stack = [] := by
  have h0 := genInv_init W H hW hH
  refine ⟨genInv_loop W H pick (genFuel W H) genInit h0, ?_⟩
  refine genLoop_stack_empty W H pick (genFuel W H) genInit h0 ?_
  have hle : (cellList W H).countP
      (fun c => decide (c ∉ genInit.visited)) ≤ (cellList W H).length :=
    List.countP_le_length _
  rw [cellList_length] at hle
  show 2 * ((cellList W H).countP (fun c => decide (c ∉ genInit.visited))) +
    1 < 2 * (W.toNat * H.toNat) + 2
  omega

/-! ## The list computed by neighbors_open -/

theorem mem_ite_singleton (P : Prop) [Decidable P] (x b : Cell) :
    (b ∈ if P then [x] else []) ↔ P ∧ b = x := by
  split
  · next hp =>
    rw [List.mem_singleton]
    exact ⟨fun h => ⟨hp, h⟩, fun h => h.2⟩
  · next hp =>
    simp only [List.not_mem_nil, false_iff]
    exact fun h => hp h.1

theorem rstep_iff (m : Maze) (a b : Cell) (ha : m.InBounds a) :
    (∃ l, m.neighbors_open a = some l ∧ b ∈ l) ↔
      ((b = (a.1, a.2 - 1) ∧ (m.cells a).n = false ∧ 0 ≤ a.2 - 1) ∨
       (b = (a.1, a.2 + 1) ∧ (m.cells a).s = false ∧ a.2 + 1 < m.height) ∨
       (b = (a.1 + 1, a.2) ∧ (m.cells a).e = false ∧ a.1 + 1 < m.width) ∨
       (b = (a.1 - 1, a.2) ∧ (m.cells a).w = false ∧ 0 ≤ a.1 - 1)) := by
  unfold Maze.neighbors_open
  rw [if_pos ha]
  constructor
  · rintro ⟨l, hl, hb⟩
    rw [Option.some.injEq] at hl
    rw [← hl] at hb
    simp only [List.mem_append, mem_ite_singleton] at hb
    rcases hb with ((⟨⟨h1, h2⟩, h3⟩ | ⟨⟨h1, h2⟩, h3⟩) | ⟨⟨h1, h2⟩, h3⟩) |
      ⟨⟨h1, h2⟩, h3⟩
    · exact Or.inl ⟨h3, h1, h2⟩
    · exact Or.inr (Or.inl ⟨h3, h1, h2⟩)
    · exact Or.inr (Or.inr (Or.inl ⟨h3, h1, h2⟩))
    · exact Or.inr (Or.inr (Or.inr ⟨h3, h1, h2⟩))
  · intro hb
    refine ⟨_, rfl, ?_⟩
    simp only [List.mem_append, mem_ite_singleton]
    rcases hb with ⟨h1, h2, h3⟩ | ⟨h1, h2, h3⟩ | ⟨h1, h2, h3⟩ | ⟨h1, h2, h3⟩
    · exact Or.inl (Or.inl (Or.inl ⟨⟨h2, h3⟩, h1⟩))
    · exact Or.inl (Or.inl (Or.inr ⟨⟨h2, h3⟩, h1⟩))
    · exact Or.inl (Or.inr ⟨⟨h2, h3⟩, h1⟩)
    · exact Or.inr ⟨⟨h2, h3⟩, h1⟩

theorem rstep_openPair (m : Maze) (hsym : SymmCells m.cells) (a b : Cell)
    (ha : m.InBounds a) :
    (∃ l, m.neighbors_open a = some l ∧ b ∈ l) ↔ m.openPair a b := by
  rw [rstep_iff m a b ha]
  obtain ⟨ha1, ha2, ha3, ha4⟩ := ha
  constructor
  · rintro (⟨h1, h2, h3⟩ | ⟨h1, h2, h3⟩ | ⟨h1, h2, h3⟩ | ⟨h1, h2, h3⟩)
    · refine ⟨⟨ha1, ha2, ha3, ha4⟩, ?_, Dir.n, h1, h2, ?_⟩
      · rw [h1]
        exact ⟨ha1, ha2, h3, by omega⟩
      · rw [h1]
        have hs' : wallGet (m.cells a) Dir.n =
            wallGet (m.cells (a.1, a.2 - 1)) Dir.n.opp := hsym a Dir.n
        rw [← hs']
        exact h2
    · refine ⟨⟨ha1, ha2, ha3, ha4⟩, ?_, Dir.s, h1, h2, ?_⟩
      · rw [h1]
        exact ⟨ha1, ha2, by omega, h3⟩
      · rw [h1]
        have hs' : wallGet (m.cells a) Dir.s =
            wallGet (m.cells (a.1, a.2 + 1)) Dir.s.opp := hsym a Dir.s
        rw [← hs']
        exact h2
    · refine ⟨⟨ha1, ha2, ha3, ha4⟩, ?_, Dir.e, h1, h2, ?_⟩
      · rw [h1]
        exact ⟨by omega, h3, ha3, ha4⟩
      · rw [h1]
        have hs' : wallGet (m.cells a) Dir.e =
            wallGet (m.cells (a.1 + 1, a.2)) Dir.e.opp := hsym a Dir.e
        rw [← hs']
        exact h2
    · refine ⟨⟨ha1, ha2, ha3, ha4⟩, ?_, Dir.w, h1, h2, ?_⟩
      · rw [h1]
        exact ⟨h3, by omega, ha3, ha4⟩
      · rw [h1]
        have hs' : wallGet (m.cells a) Dir.w =
            wallGet (m.cells (a.1 - 1, a.2)) Dir.w.opp := hsym a Dir.w
        rw [← hs']
        exact h2
  · rintro ⟨-, hb, d, hbd, h1, -⟩
    cases d
    · refine Or.inl ⟨hbd, h1, ?_⟩
      rw [hbd] at hb
      exact hb.2.2.1
    · refine Or.inr (Or.inl ⟨hbd, h1, ?_⟩)
      rw [hbd] at hb
      exact hb.2.2.2
    · refine Or.inr (Or.inr (Or.inl ⟨hbd, h1, ?_⟩))
      rw [hbd] at hb
      exact hb.2.1
    · refine Or.inr (Or.inr (Or.inr ⟨hbd, h1, ?_⟩))
      rw [hbd] at hb
      exact hb.1

/-! ## Claim theorems about generation -/

/-- C1: for every width `W ≥ 1`, height `H ≥ 1` and every random-choice
stream, the maze returned by `Maze.create` is perfect: the open-adjacency
graph (in-bounds unit-adjacent cells whose shared wall is absent on the
facing sides) is connected over all `W*H` cells, has exactly `W*H - 1`
open edges, and admits exactly one simple path between any two cells
(which expresses acyclicity). -/
theorem create_perfect (W H : Int) (pick : Nat → Nat)
    (hW : 1 ≤ W) (hH : 1 ≤ H) :
    (∀ a b : Cell, (Maze.create W H pick).InBounds a →
        (Maze.create W H pick).InBounds b →
        ∃ p, IsPath (Maze.create W H pick) p a b) ∧
    (openEdgeCount (Maze.create W H pick) : Int) = W * H - 1 ∧
    (∀ a b : Cell, (Maze.create W H pick).InBounds a →
        (Maze.create W H pick).InBounds b →
        ∃! p, IsSimplePath (Maze.create W H pick) p a b) := by
  obtain ⟨hinv, hempty⟩ := create_inv W H pick hW hH
  have hcov := genInv_coverage W H _ hinv hempty
  have husp : ∀ a b : Cell, (Maze.create W H pick).InBounds a →
      (Maze.create W H pick).InBounds b →
      ∃! p, IsSimplePath (Maze.create W H pick) p a b := by
    intro a b ha hb
    exact hinv.usp a b (hcov a ha) (hcov b hb)
  have hperm := genInv_visited_perm W H _ hinv hempty
  have hlen : (genLoop W H pick (genFuel W H) genInit).visited.length =
      W.toNat * H.toNat := by
    rw [hperm.length_eq, cellList_length]
  have hcnt : openEdgeCount (Maze.create W H pick) + 1 =
      W.toNat * H.toNat := by
    have hc := hinv.count
    rw [hlen] at hc
    exact hc
  have hprod : ((W.toNat * H.toNat : Nat) : Int) = W * H := by
    push_cast
    rw [Int.toNat_of_nonneg (by omega : (0 : Int) ≤ W),
      Int.toNat_of_nonneg (by omega : (0 : Int) ≤ H)]
  refine ⟨?_, ?_, husp⟩
  · intro a b ha hb
    obtain ⟨p, hp, -⟩ := husp a b ha hb
    exact ⟨p, hp.1⟩
  · rw [← hprod]
    omega

/-- C6: for every `W, H ≥ 1` and every random stream, the generation loop
terminates within its fuel (the stack is empty afterwards), the visited
list holds every in-bounds cell exactly once — and each push of the loop
corresponds to exactly one visited-list insertion, so exactly `W*H` pushes
are performed — and whenever the stack has emptied (at any fuel), every
cell of the grid has been visited. -/
theorem generation_terminates (W H : Int) (pick : Nat → Nat)
    (hW : 1 ≤ W) (hH : 1 ≤ H) :
    (genLoop W H pick (genFuel W H) genInit).stack = [] ∧
    (genLoop W H pick (genFuel W H) genInit).visited.Nodup ∧
    (∀ c : Cell, c ∈ (genLoop W H pick (genFuel W H) genInit).visited ↔
        inRect W H c) ∧
    ((genLoop W H pick (genFuel W H) genInit).visited.length : Int) =
      W * H ∧
    (∀ fuel : Nat, (genLoop W H pick fuel genInit).stack = [] →
        ∀ c : Cell, inRect W H c →
          c ∈ (genLoop W H pick fuel genInit).visited) := by
  obtain ⟨hinv, hempty⟩ := create_inv W H pick hW hH
  have hperm := genInv_visited_perm W H _ hinv hempty
  refine ⟨hempty, hinv.vis_nodup, ?_, ?_, ?_⟩
  · intro c
    constructor
    · intro hc
      exact hinv.vis_inb c hc
    · intro hc
      exact genInv_coverage W H _ hinv hempty c hc
  · have hlen : (genLoop W H pick (genFuel W H) genInit).visited.length =
        W.toNat * H.toNat := by
      rw [hperm.length_eq, cellList_length]
    rw [hlen]
    push_cast
    rw [Int.toNat_of_nonneg (by omega : (0 : Int) ≤ W),
      Int.toNat_of_nonneg (by omega : (0 : Int) ≤ H)]
  · intro fuel hf c hc
    have hinvf := genInv_loop W H pick fuel genInit (genInv_init W H hW hH)
    exact genInv_coverage W H _ hinvf hf c hc

/-- C9: in every generated maze the wall a cell records toward an adjacent
in-bounds cell equals the wall that cell records back (generation always
clears both facing sides together), and consequently `neighbors_open` —
which inspects only the queried cell's own wall booleans — computes
exactly the symmetric open adjacency. -/
theorem create_wall_symmetry (W H : Int) (pick : Nat → Nat)
    (hW : 1 ≤ W) (hH : 1 ≤ H) :
    (∀ (a : Cell) (d : Dir), (Maze.create W H pick).InBounds a →
        (Maze.create W H pick).InBounds (dirDelta d a) →
        wallGet ((Maze.create W H pick).cells a) d =
          wallGet ((Maze.create W H pick).cells (dirDelta d a)) d.opp) ∧
    (∀ a b : Cell, (Maze.create W H pick).InBounds a →
        ((∃ l, (Maze.create W H pick).neighbors_open a = some l ∧ b ∈ l) ↔
          (Maze.create W H pick).openPair a b)) := by
  obtain ⟨hinv, -⟩ := create_inv W H pick hW hH
  have hsym : SymmCells (Maze.create W H pick).cells := hinv.symm
  exact ⟨fun a d _ _ => hsym a d,
    fun a b ha => rstep_openPair _ hsym a b ha⟩

/-- C3: seeding makes generation reproducible: two calls of
`Maze.create(W, H, seed=s)` return mazes with identical dimensions and
identical wall booleans at every cell and direction, regardless of the
global random state each call starts from (`random.seed(s)` overwrites
it). -/
theorem createSeeded_deterministic (s W H : Int) (g1 g2 : Nat → Nat)
    (hW : 1 ≤ W) (hH : 1 ≤ H) :
    (Maze.createSeeded W H g1 (some s)).width =
        (Maze.createSeeded W H g2 (some s)).width ∧
    (Maze.createSeeded W H g1 (some s)).height =
        (Maze.createSeeded W H g2 (some s)).height ∧
    ∀ (c : Cell) (d : Dir),
      wallGet ((Maze.createSeeded W H g1 (some s)).cells c) d =
        wallGet ((Maze.createSeeded W H g2 (some s)).cells c) d :=
  ⟨rfl, rfl, fun _ _ => rfl⟩

/-- C4 (amended): `create` performs no dimension validation and no
`InvalidDimension` error exists in the code; with a non-positive width or
height the generation loop immediately pops its start cell and `create`
returns a normal `Maze` value carrying the requested dimensions and an
untouched, fully-walled (empty) cell dictionary. -/
theorem create_nonpos (W H : Int) (pick : Nat → Nat)
    (h : W ≤ 0 ∨ H ≤ 0) :
    Maze.create W H pick = Maze.mk W H (fun _ => allWalls) := by
  have hfuel : genFuel W H = 2 := by
    unfold genFuel
    have hz : W.toNat * H.toNat = 0 := by
      rcases h with h | h
      · have hw : W.toNat = 0 := by omega
        rw [hw, Nat.zero_mul]
      · have hh : H.toNat = 0 := by omega
        rw [hh, Nat.mul_zero]
    rw [hz]
  have hemp : ((cand ((0 : Int), (0 : Int))).filter
      (fun p => decide (inRect W H p.1 ∧ p.1 ∉ genInit.visited))).isEmpty
        = true := by
    refine List.isEmpty_iff.mpr (List.filter_eq_nil_iff.mpr ?_)
    intro p hp
    simp only [decide_eq_true_eq]
    rintro ⟨⟨h1, h2, h3, h4⟩, -⟩
    rcases h with h | h <;> omega
  have h1 : genStep W H pick genInit =
      (⟨genInit.cells, [], genInit.visited, genInit.t⟩ : GenState) :=
    genStep_pop W H pick genInit.cells genInit.visited genInit.t
      ((0 : Int), (0 : Int)) [] hemp
  have h2 : genLoop W H pick 2 genInit =
      (⟨genInit.cells, [], genInit.visited, genInit.t⟩ : GenState) := by
    have e1 : genLoop W H pick 2 genInit =
        genLoop W H pick 1 (genStep W H pick genInit) := rfl
    rw [e1, h1]
    rfl
  show Maze.mk W H (genLoop W H pick (genFuel W H) genInit).cells =
    Maze.mk W H (fun _ => allWalls)
  rw [hfuel, h2]
  rfl

/-- C4 (counterexample): requesting `create(0, 5)` does not fail — a maze
value with width `0` and height `5` is returned (its cell dictionary is
empty: no cell is in bounds). -/
theorem create_zero_width_returns_value :
    (Maze.createSeeded 0 5 (fun _ => 0) (some 42)).width = 0 ∧
    (Maze.createSeeded 0 5 (fun _ => 0) (some 42)).height = 5 :=
  ⟨rfl, rfl⟩

/-! ## BFS: the came_from dictionary -/

theorem cfGet_eq_none {cf : CameFrom} {c : Cell} (h : c ∉ cfKeys cf) :
    cfGet cf c = none := by
  induction cf with
  | nil => rfl
  | cons e rest ih =>
    obtain ⟨k, v⟩ := e
    unfold cfGet
    rw [if_neg, ih]
    · intro hc
      exact h (List.mem_cons_of_mem _ hc)
    · intro hk
      exact h (hk ▸ List.mem_cons_self _ _)

theorem cfGet_isSome_iff (cf : CameFrom) (c : Cell) :
    (cfGet cf c).isSome = true ↔ c ∈ cfKeys cf := by
  induction cf with
  | nil => simp [cfGet, cfKeys]
  | cons e rest ih =>
    obtain ⟨k, v⟩ := e
    unfold cfGet
    rcases eq_or_ne k c with hk | hk
    · subst hk
      simp [cfKeys]
    · rw [if_neg hk, ih]
      show c ∈ cfKeys rest ↔ c ∈ k :: cfKeys rest
      rw [List.mem_cons]
      exact ⟨Or.inr, fun h => h.elim (fun h1 => absurd h1.symm hk) id⟩

theorem cfKeys_suffix {cf sfx : CameFrom} (h : sfx <:+ cf) :
    cfKeys sfx <:+ cfKeys cf := h.map Prod.fst

theorem cfGet_suffix {cf : CameFrom} (hnd : (cfKeys cf).Nodup) :
    ∀ {sfx : CameFrom} {c : Cell}, sfx <:+ cf → c ∈ cfKeys sfx →
      cfGet cf c = cfGet sfx c := by
  induction cf with
  | nil =>
    intro sfx c hs hc
    rw [List.suffix_nil.mp hs] at hc
    exact absurd hc (List.not_mem_nil c)
  | cons e rest ih =>
    intro sfx c hs hc
    rcases List.suffix_cons_iff.mp hs with hs1 | hs1
    · rw [hs1]
    · obtain ⟨k, v⟩ := e
      have hnd' : (k :: cfKeys rest).Nodup := hnd
      have hkc : k ≠ c := by
        intro hk
        have hcr : c ∈ cfKeys rest :=
          (cfKeys_suffix hs1).subset hc
        rw [List.nodup_cons] at hnd'
        exact hnd'.1 (hk ▸ hcr)
      show (if k = c then some v else cfGet rest c) = cfGet sfx c
      rw [if_neg hkc]
      exact ih (List.nodup_cons.mp hnd').2 hs1 hc

theorem getLast?_cons_of_ne_nil {α : Type} (x : α) {l : List α}
    (h : l ≠ []) : (x :: l).getLast? = l.getLast? := by
  match l, h with
  | y :: ys, _ => rw [List.getLast?_cons_cons]

/-- Well-formedness of the predecessor dictionary built by BFS: every
entry but the base points through one solver step to an earlier-discovered
key, and the only `None`-valued entry is the start's, at the very end. -/
def CFWF (m : Maze) (start : Cell) : CameFrom → Prop
  | [] => True
  | (c, none) :: rest => c = start ∧ rest = []
  | (c, some p) :: rest => p ∈ cfKeys rest ∧ m.Rstep p c ∧ CFWF m start rest

theorem CFWF_suffix {m : Maze} {start : Cell} :
    ∀ {cf sfx : CameFrom}, CFWF m start cf → sfx <:+ cf →
      CFWF m start sfx := by
  intro cf
  induction cf with
  | nil =>
    intro sfx h hs
    rw [List.suffix_nil.mp hs]
    trivial
  | cons e rest ih =>
    intro sfx h hs
    rcases List.suffix_cons_iff.mp hs with hs1 | hs1
    · rw [hs1]
      exact h
    · obtain ⟨k, v⟩ := e
      cases v with
      | none =>
        obtain ⟨-, hrest⟩ := h
        subst hrest
        rw [List.suffix_nil.mp hs1]
        trivial
      | some p =>
        exact ih h.2.2 hs1

theorem rstep_inb_left {m : Maze} {a b : Cell} (h : m.Rstep a b) :
    m.InBounds a := by
  obtain ⟨l, hl, -⟩ := h
  by_contra hin
  unfold Maze.neighbors_open at hl
  rw [if_neg hin] at hl
  exact Option.noConfusion hl

theorem rstep_inb_right {m : Maze} {a b : Cell} (h : m.Rstep a b) :
    m.InBounds b := by
  have ha := rstep_inb_left h
  obtain ⟨ha1, ha2, ha3, ha4⟩ := ha
  have h' : ∃ l, m.neighbors_open a = some l ∧ b ∈ l := h
  rw [rstep_iff m a b ⟨ha1, ha2, ha3, ha4⟩] at h'
  rcases h' with ⟨h1, -, h3⟩ | ⟨h1, -, h3⟩ | ⟨h1, -, h3⟩ | ⟨h1, -, h3⟩ <;>
    subst h1 <;> exact ⟨by omega, by omega, by omega, by omega⟩

theorem keys_bound (m : Maze) (cf : CameFrom)
    (hnd : (cfKeys cf).Nodup) (hinb : ∀ c ∈ cfKeys cf, m.InBounds c) :
    (cfKeys cf).length ≤ m.width.toNat * m.height.toNat := by
  have hsub : cfKeys cf ⊆ cellList m.width m.height := by
    intro c hc
    exact (mem_cellList m.width m.height c).mpr (hinb c hc)
  have := (hnd.subperm hsub).length_le
  rwa [cellList_length] at this

/-- The breadth-first loop invariant: the dictionary keys are the
discovered cells (duplicate-free, reachable from the start, in bounds
except possibly the start itself), the queue holds discovered cells, the
dictionary is well-formed with the start entry at the base, and every
discovered cell no longer in the queue has had all its open neighbours
discovered. -/
structure BfsInv (m : Maze) (start goal : Cell) (q : List Cell)
    (cf : CameFrom) : Prop where
  keys_nodup : (cfKeys cf).Nodup
  wf : CFWF m start cf
  base : cf.getLast? = some (start, none)
  q_keys : ∀ c ∈ q, c ∈ cfKeys cf
  keys_reach : ∀ c ∈ cfKeys cf, m.Reaches start c
  keys_inb : ∀ c ∈ cfKeys cf, c = start ∨ m.InBounds c
  closed : ∀ c ∈ cfKeys cf, c ∉ q → ∀ b, m.Rstep c b → b ∈ cfKeys cf

theorem bfsExpand_spec (m : Maze) (start cur : Cell) :
    ∀ (nbs q : List Cell) (cf : CameFrom),
      (cfKeys cf).Nodup → CFWF m start cf →
      cf.getLast? = some (start, none) →
      cur ∈ cfKeys cf → (∀ nb ∈ nbs, m.Rstep cur nb) →
      (cfKeys (bfsExpand cur nbs q cf).2).Nodup ∧
      CFWF m start (bfsExpand cur nbs q cf).2 ∧
      (bfsExpand cur nbs q cf).2.getLast? = some (start, none) ∧
      (∀ c ∈ cfKeys cf, c ∈ cfKeys (bfsExpand cur nbs q cf).2) ∧
      (∀ c ∈ cfKeys (bfsExpand cur nbs q cf).2,
        c ∈ cfKeys cf ∨ c ∈ nbs) ∧
      (∀ nb ∈ nbs, nb ∈ cfKeys (bfsExpand cur nbs q cf).2) ∧
      (∀ c ∈ q, c ∈ (bfsExpand cur nbs q cf).1) ∧
      (∀ c ∈ (bfsExpand cur nbs q cf).1,
        c ∈ q ∨ c ∈ cfKeys (bfsExpand cur nbs q cf).2) ∧
      (∀ c ∈ cfKeys (bfsExpand cur nbs q cf).2, c ∉ cfKeys cf →
        c ∈ (bfsExpand cur nbs q cf).1) ∧
      ((bfsExpand cur nbs q cf).1.length + (cfKeys cf).length =
        q.length + (cfKeys (bfsExpand cur nbs q cf).2).length) := by
  intro nbs
  induction nbs with
  | nil =>
    intro q cf hnd hwf hbase hcur hR
    refine ⟨hnd, hwf, hbase, fun c hc => hc, fun c hc => Or.inl hc,
      fun x hx => absurd hx (List.not_mem_nil x), fun c hc => hc,
      fun c hc => Or.inl hc, fun c hc hcold => absurd hc hcold, rfl⟩
  | cons nb nbs' ih =>
    intro q cf hnd hwf hbase hcur hR
    by_cases hs : (cfGet cf nb).isSome = true
    · have hstep : bfsExpand cur (nb :: nbs') q cf =
          bfsExpand cur nbs' q cf := by
        unfold bfsExpand
        rw [List.foldl_cons]
        congr 1
        show (if (cfGet cf nb).isSome = true then (q, cf)
          else (q ++ [nb], (nb, some cur) :: cf)) = (q, cf)
        rw [if_pos hs]
      rw [hstep]
      have hnbk : nb ∈ cfKeys cf := (cfGet_isSome_iff cf nb).mp hs
      obtain ⟨a1, a2, a3, a4, a5, a6, a7, a8, a9, a10⟩ :=
        ih q cf hnd hwf hbase hcur
          (fun x hx => hR x (List.mem_cons_of_mem _ hx))
      refine ⟨a1, a2, a3, a4, ?_, ?_, a7, a8, a9, a10⟩
      · intro c hc
        exact (a5 c hc).imp id (List.mem_cons_of_mem _)
      · intro x hx
        rcases List.mem_cons.mp hx with h1 | h1
        · exact h1 ▸ a4 nb hnbk
        · exact a6 x h1
    · have hstep : bfsExpand cur (nb :: nbs') q cf =
          bfsExpand cur nbs' (q ++ [nb]) ((nb, some cur) :: cf) := by
        unfold bfsExpand
        rw [List.foldl_cons]
        congr 1
        show (if (cfGet cf nb).isSome = true then (q, cf)
          else (q ++ [nb], (nb, some cur) :: cf)) =
          (q ++ [nb], (nb, some cur) :: cf)
        rw [if_neg hs]
      rw [hstep]
      have hnbk : nb ∉ cfKeys cf := by
        intro hcon
        exact hs ((cfGet_isSome_iff cf nb).mpr hcon)
      have hnd1 : (cfKeys ((nb, some cur) :: cf)).Nodup := by
        show (nb :: cfKeys cf).Nodup
        exact List.nodup_cons.mpr ⟨hnbk, hnd⟩
      have hwf1 : CFWF m start ((nb, some cur) :: cf) :=
        ⟨hcur, hR nb (List.mem_cons_self _ _), hwf⟩
      have hcfne : cf ≠ [] := by
        intro hcon
        rw [hcon] at hbase
        exact Option.noConfusion hbase
      have hbase1 : ((nb, some cur) :: cf).getLast? = some (start, none) := by
        rw [getLast?_cons_of_ne_nil _ hcfne]
        exact hbase
      have hcur1 : cur ∈ cfKeys ((nb, some cur) :: cf) :=
        List.mem_cons_of_mem _ hcur
      obtain ⟨a1, a2, a3, a4, a5, a6, a7, a8, a9, a10⟩ :=
        ih (q ++ [nb]) ((nb, some cur) :: cf) hnd1 hwf1 hbase1 hcur1
          (fun x hx => hR x (List.mem_cons_of_mem _ hx))
      refine ⟨a1, a2, a3, ?_, ?_, ?_, ?_, ?_, ?_, ?_⟩
      · intro c hc
        exact a4 c (List.mem_cons_of_mem _ hc)
      · intro c hc
        rcases a5 c hc with h1 | h1
        · rcases List.mem_cons.mp h1 with h2 | h2
          · exact Or.inr (h2 ▸ List.mem_cons_self _ _)
          · exact Or.inl h2
        · exact Or.inr (List.mem_cons_of_mem _ h1)
      · intro x hx
        rcases List.mem_cons.mp hx with h1 | h1
        · exact h1 ▸ a4 nb (List.mem_cons_self _ _)
        · exact a6 x h1
      · intro c hc
        exact a7 c (List.mem_append_left _ hc)
      · intro c hc
        rcases a8 c hc with h1 | h1
        · rcases List.mem_append.mp h1 with h2 | h2
          · exact Or.inl h2
          · rw [List.mem_singleton] at h2
            exact Or.inr (h2 ▸ a4 nb (List.mem_cons_self _ _))
        · exact Or.inr h1
      · intro c hc hcold
        by_cases hc1 : c ∈ cfKeys ((nb, some cur) :: cf)
        · rcases List.mem_cons.mp hc1 with h2 | h2
          · refine a7 c ?_
            rw [h2]
            exact List.mem_append_right _ (List.mem_singleton.mpr rfl)
          · exact absurd h2 hcold
        · exact a9 c hc hc1
      · have e1 : (cfKeys ((nb, some cur) :: cf)).length =
            (cfKeys cf).length + 1 := by
          show (nb :: cfKeys cf).length = _
          rw [List.length_cons]
        rw [List.length_append, List.length_singleton, e1] at a10
        omega

theorem neighbors_open_isSome (m : Maze) (c : Cell) (h : m.InBounds c) :
    ∃ nl, m.neighbors_open c = some nl := by
  unfold Maze.neighbors_open
  rw [if_pos h]
  exact ⟨_, rfl⟩

theorem bfsLoop_cons (m : Maze) (goal : Cell) (fuel : Nat) (cur : Cell)
    (rest : List Cell) (cf : CameFrom) :
    bfsLoop m goal (fuel + 1) (cur :: rest) cf =
      if cur = goal then some cf
      else
        match m.neighbors_open cur with
        | none => none
        | some nbs =>
          bfsLoop m goal fuel (bfsExpand cur nbs rest cf).1
            (bfsExpand cur nbs rest cf).2 := rfl

theorem bfsLoop_spec (m : Maze) (start goal : Cell)
    (hstart : m.InBounds start) :
    ∀ (fuel : Nat) (q : List Cell) (cf : CameFrom),
      BfsInv m start goal q cf →
      (m.width.toNat * m.height.toNat + 1 - (cfKeys cf).length) + q.length
        < fuel →
      ∃ cf', bfsLoop m goal fuel q cf = some cf' ∧
        (cfKeys cf').Nodup ∧ CFWF m start cf' ∧
        cf'.getLast? = some (start, none) ∧
        (∀ c ∈ cfKeys cf, c ∈ cfKeys cf') ∧
        (∀ c ∈ cfKeys cf', m.Reaches start c) ∧
        (goal ∈ cfKeys cf' ∨
          ∀ c ∈ cfKeys cf', ∀ b, m.Rstep c b → b ∈ cfKeys cf') := by
  intro fuel
  induction fuel with
  | zero =>
    intro q cf _ hm
    exact absurd hm (Nat.not_lt_zero _)
  | succ n ih =>
    intro q cf hinv hm
    cases q with
    | nil =>
      refine ⟨cf, rfl, hinv.keys_nodup, hinv.wf, hinv.base,
        fun c hc => hc, hinv.keys_reach, Or.inr ?_⟩
      intro c hc b hb
      exact hinv.closed c hc (List.not_mem_nil c) b hb
    | cons cur rest =>
      by_cases hgoal : cur = goal
      · refine ⟨cf, ?_, hinv.keys_nodup, hinv.wf, hinv.base,
          fun c hc => hc, hinv.keys_reach, Or.inl ?_⟩
        · rw [bfsLoop_cons, if_pos hgoal]
        · exact hgoal ▸ hinv.q_keys cur (List.mem_cons_self _ _)
      · have hkeys_inb : ∀ c ∈ cfKeys cf, m.InBounds c := by
          intro c hc
          rcases hinv.keys_inb c hc with h1 | h1
          · exact h1 ▸ hstart
          · exact h1
        have hcurk : cur ∈ cfKeys cf :=
          hinv.q_keys cur (List.mem_cons_self _ _)
        have hcin : m.InBounds cur := hkeys_inb cur hcurk
        obtain ⟨nl, hnl⟩ := neighbors_open_isSome m cur hcin
        have hR : ∀ nb ∈ nl, m.Rstep cur nb := fun nb hb => ⟨nl, hnl, hb⟩
        have hRiff : ∀ b, m.Rstep cur b → b ∈ nl := by
          rintro b ⟨l, hl, hbl⟩
          rw [hnl] at hl
          rw [← Option.some.inj hl] at hbl
          exact hbl
        obtain ⟨a1, a2, a3, a4, a5, a6, a7, a8, a9, a10⟩ :=
          bfsExpand_spec m start cur nl rest cf hinv.keys_nodup hinv.wf
            hinv.base hcurk hR
        have hinv' : BfsInv m start goal (bfsExpand cur nl rest cf).1
            (bfsExpand cur nl rest cf).2 := by
          refine ⟨a1, a2, a3, ?_, ?_, ?_, ?_⟩
          · intro c hc
            rcases a8 c hc with h1 | h1
            · exact a4 c (hinv.q_keys c (List.mem_cons_of_mem _ h1))
            · exact h1
          · intro c hc
            rcases a5 c hc with h1 | h1
            · exact hinv.keys_reach c h1
            · exact Relation.ReflTransGen.tail
                (hinv.keys_reach cur hcurk) (hR c h1)
          · intro c hc
            rcases a5 c hc with h1 | h1
            · exact hinv.keys_inb c h1
            · exact Or.inr (rstep_inb_right (hR c h1))
          · intro c hc hcq b hb
            by_cases hcc : c = cur
            · subst hcc
              exact a6 b (hRiff b hb)
            · by_cases hcold : c ∈ cfKeys cf
              · have hcrest : c ∉ rest := fun hcon => hcq (a7 c hcon)
                have hcq0 : c ∉ cur :: rest := by
                  intro hcon
                  rcases List.mem_cons.mp hcon with h2 | h2
                  · exact hcc h2
                  · exact hcrest h2
                exact a4 b (hinv.closed c hcold hcq0 b hb)
              · exact absurd (a9 c hc hcold) hcq
        have hKle : (cfKeys cf).length ≤
            (cfKeys (bfsExpand cur nl rest cf).2).length :=
          (hinv.keys_nodup.subperm (fun c hc => a4 c hc)).length_le
        have hbound1 : (cfKeys (bfsExpand cur nl rest cf).2).length ≤
            m.width.toNat * m.height.toNat + 1 := by
          have hai : ∀ c ∈ cfKeys (bfsExpand cur nl rest cf).2,
              m.InBounds c := by
            intro c hc
            rcases hinv'.keys_inb c hc with h1 | h1
            · exact h1 ▸ hstart
            · exact h1
          exact le_trans (keys_bound m _ a1 hai) (Nat.le_succ _)
        have hlrest : (cur :: rest).length = rest.length + 1 :=
          List.length_cons cur rest
        obtain ⟨cf', hrun, b1, b2, b3, b4, b5, b6⟩ :=
          ih (bfsExpand cur nl rest cf).1 (bfsExpand cur nl rest cf).2 hinv'
            (by rw [hlrest] at hm; omega)
        refine ⟨cf', ?_, b1, b2, b3, ?_, b5, b6⟩
        · rw [bfsLoop_cons, if_neg hgoal, hnl]
          exact hrun
        · intro c hc
          exact b4 c (a4 c hc)

theorem walkBack_spec (m : Maze) (start : Cell) (cf : CameFrom)
    (hnd : (cfKeys cf).Nodup) (hwf : CFWF m start cf) :
    ∀ (sfx : CameFrom) (c : Cell) (fuel : Nat), sfx <:+ cf →
      c ∈ cfKeys sfx → sfx.length ≤ fuel →
      (walkBack cf fuel c).head? = some c ∧
      (walkBack cf fuel c).getLast? = some start ∧
      List.Chain' (fun x y => m.Rstep y x) (walkBack cf fuel c) ∧
      (walkBack cf fuel c).Nodup ∧
      (∀ x ∈ walkBack cf fuel c, x ∈ cfKeys sfx) := by
  intro sfx
  induction sfx with
  | nil =>
    intro c fuel _ hc _
    exact absurd hc (List.not_mem_nil c)
  | cons e rest ih =>
    intro c fuel hs hc hfl
    obtain ⟨k, v⟩ := e
    match fuel, hfl with
    | 0, hfl =>
      exact absurd hfl (by rw [List.length_cons]; omega)
    | f + 1, hfl =>
      rcases eq_or_ne k c with hk | hk
      · subst hk
        have hget : cfGet cf k = some v := by
          rw [cfGet_suffix hnd hs
            (show k ∈ cfKeys ((k, v) :: rest) from List.mem_cons_self _ _)]
          show (if k = k then some v else cfGet rest k) = some v
          rw [if_pos rfl]
        cases v with
        | none =>
          obtain ⟨hks, hrest⟩ := CFWF_suffix hwf hs
          have hgd : cfGetD cf k = none := by
            unfold cfGetD
            rw [hget]
            rfl
          have hwb : walkBack cf (f + 1) k = [k] := by
            unfold walkBack
            rw [hgd]
          rw [hwb]
          refine ⟨rfl, by rw [hks]; rfl, List.chain'_singleton _,
            List.nodup_singleton _, ?_⟩
          intro x hx
          rw [List.mem_singleton] at hx
          exact hx ▸ List.mem_cons_self _ _
        | some p =>
          obtain ⟨hpk, hRpk, hwfr⟩ := CFWF_suffix hwf hs
          have hgd : cfGetD cf k = some p := by
            unfold cfGetD
            rw [hget]
            rfl
          have hwb : walkBack cf (f + 1) k = k :: walkBack cf f p := by
            conv_lhs => unfold walkBack
            rw [hgd]
          have hrs : rest <:+ cf := (List.suffix_cons (k, some p) rest).trans hs
          obtain ⟨w1, w2, w3, w4, w5⟩ := ih p f hrs hpk
            (by rw [List.length_cons] at hfl; omega)
          rw [hwb]
          have hwne : walkBack cf f p ≠ [] := by
            intro hcon
            rw [hcon] at w1
            exact Option.noConfusion w1
          have hndsfx : (k :: cfKeys rest).Nodup :=
            hnd.sublist (cfKeys_suffix hs).sublist
          refine ⟨rfl, ?_, ?_, ?_, ?_⟩
          · rw [getLast?_cons_of_ne_nil _ hwne]
            exact w2
          · rw [List.chain'_cons']
            refine ⟨?_, w3⟩
            intro y hy
            rw [w1] at hy
            have hyp : y = p := (Option.mem_some_iff.mp hy).symm
            exact hyp ▸ hRpk
          · rw [List.nodup_cons]
            refine ⟨?_, w4⟩
            intro hkmem
            exact (List.nodup_cons.mp hndsfx).1 (w5 k hkmem)
          · intro x hx
            rcases List.mem_cons.mp hx with h1 | h1
            · exact h1 ▸ List.mem_cons_self _ _
            · exact List.mem_cons_of_mem _ (w5 x h1)
      · have hcr : c ∈ cfKeys rest := by
          rcases List.mem_cons.mp
            (show c ∈ k :: cfKeys rest from hc) with h1 | h1
          · exact absurd h1.symm hk
          · exact h1
        have hrs : rest <:+ cf := (List.suffix_cons (k, v) rest).trans hs
        obtain ⟨w1, w2, w3, w4, w5⟩ := ih c (f + 1) hrs hcr
          (by rw [List.length_cons] at hfl; omega)
        exact ⟨w1, w2, w3, w4,
          fun x hx => List.mem_cons_of_mem _ (w5 x hx)⟩

theorem solve_bfs_eq (m : Maze) (start : Cell) (goalOpt : Option Cell) :
    m.solve_bfs start goalOpt =
      match bfsLoop m (goalOpt.getD (m.width - 1, m.height - 1)) (bfsFuel m)
          [start] [(start, none)] with
      | none => none
      | some cf =>
        some ((walkBack cf cf.length
          (goalOpt.getD (m.width - 1, m.height - 1))).reverse) := rfl

theorem solve_bfs_some_eq (m : Maze) (start goal : Cell) :
    m.solve_bfs start (some goal) =
      match bfsLoop m goal (bfsFuel m) [start] [(start, none)] with
      | none => none
      | some cf => some ((walkBack cf cf.length goal).reverse) := rfl

theorem solve_run (m : Maze) (start goal : Cell) (hs : m.InBounds start) :
    ∃ cf', bfsLoop m goal (bfsFuel m) [start] [(start, none)] = some cf' ∧
      (cfKeys cf').Nodup ∧ CFWF m start cf' ∧
      cf'.getLast? = some (start, none) ∧
      start ∈ cfKeys cf' ∧
      (∀ c ∈ cfKeys cf', m.Reaches start c) ∧
      (m.Reaches start goal → goal ∈ cfKeys cf') := by
  have hinv0 : BfsInv m start goal [start] [(start, none)] := by
    refine ⟨List.nodup_singleton _, ⟨rfl, rfl⟩, rfl, fun c hc => hc, ?_, ?_,
      ?_⟩
    · intro c hc
      have hcs : c = start := List.mem_singleton.mp hc
      exact hcs ▸ Relation.ReflTransGen.refl
    · intro c hc
      exact Or.inl (List.mem_singleton.mp hc)
    · intro c hc hq
      exact absurd hc hq
  have hμ : (m.width.toNat * m.height.toNat + 1 -
      (cfKeys [(start, (none : Option Cell))]).length) +
      ([start] : List Cell).length < bfsFuel m := by
    show m.width.toNat * m.height.toNat + 1 - 1 + 1 <
      m.width.toNat * m.height.toNat + 2
    omega
  obtain ⟨cf', h1, h2, h3, h4, h5, h6, h7⟩ :=
    bfsLoop_spec m start goal hs (bfsFuel m) [start] [(start, none)] hinv0 hμ
  refine ⟨cf', h1, h2, h3, h4, h5 start (List.mem_singleton.mpr rfl), h6, ?_⟩
  intro hreach
  rcases h7 with h7 | h7
  · exact h7
  · have hall : ∀ c, m.Reaches start c → c ∈ cfKeys cf' := by
      intro c hc
      induction hc with
      | refl => exact h5 start (List.mem_singleton.mpr rfl)
      | tail _ hstep ih => exact h7 _ ih _ hstep
    exact hall goal hreach

theorem solve_bfs_reached (m : Maze) (start goal : Cell)
    (hs : m.InBounds start) (hreach : m.Reaches start goal) :
    ∃ r, m.solve_bfs start (some goal) = some r ∧
      r.head? = some start ∧ r.getLast? = some goal ∧
      List.Chain' m.Rstep r ∧ r.Nodup := by
  obtain ⟨cf', hrun, hnd, hwf, hbase, hstartk, hreachk, hgoalk⟩ :=
    solve_run m start goal hs
  have hg : goal ∈ cfKeys cf' := hgoalk hreach
  obtain ⟨w1, w2, w3, w4, w5⟩ := walkBack_spec m start cf' hnd hwf cf' goal
    cf'.length (List.suffix_refl cf') hg (le_refl _)
  refine ⟨(walkBack cf' cf'.length goal).reverse, ?_, ?_, ?_, ?_, ?_⟩
  · rw [solve_bfs_some_eq, hrun]
  · rw [List.head?_reverse]
    exact w2
  · rw [List.getLast?_reverse]
    exact w1
  · rw [List.chain'_reverse]
    exact w3
  · exact List.nodup_reverse.mpr w4

theorem solve_bfs_unreachable (m : Maze) (start goal : Cell)
    (hs : m.InBounds start) (hnr : ¬ m.Reaches start goal) :
    m.solve_bfs start (some goal) = some [goal] := by
  obtain ⟨cf', hrun, hnd, hwf, hbase, hstartk, hreachk, -⟩ :=
    solve_run m start goal hs
  have hg : goal ∉ cfKeys cf' := fun hcon => hnr (hreachk goal hcon)
  have hcfne : cf' ≠ [] := by
    intro hcon
    rw [hcon] at hbase
    exact Option.noConfusion hbase
  have hgd : cfGetD cf' goal = none := by
    unfold cfGetD
    rw [cfGet_eq_none hg]
    rfl
  have hlen : cf'.length = (cf'.length - 1) + 1 := by
    have := List.length_pos.mpr hcfne
    omega
  have hwb : walkBack cf' cf'.length goal = [goal] := by
    rw [hlen]
    conv_lhs => unfold walkBack
    rw [hgd]
  rw [solve_bfs_some_eq, hrun]
  show some ((walkBack cf' cf'.length goal).reverse) = some [goal]
  rw [hwb]
  rfl

theorem exists_simple_subpath {r : Cell → Cell → Prop} :
    ∀ (n : Nat) (p : List Cell) (a b : Cell), p.length ≤ n →
      IsPathR r p a b →
      ∃ q, IsPathR r q a b ∧ q.Nodup ∧ q.length ≤ p.length ∧
        ∀ x ∈ q, x ∈ p := by
  intro n
  induction n with
  | zero =>
    intro p a b hl hp
    have hne := hp.ne_nil
    match p, hne with
    | x :: xs, _ => simp at hl
  | succ n ih =>
    intro p a b hl hp
    obtain ⟨h1, h2, h3⟩ := hp
    match p, h1 with
    | x :: xs, h1 =>
      simp only [List.head?_cons, Option.some.injEq] at h1
      subst h1
      by_cases hax : x ∈ xs
      · obtain ⟨s, t, hst⟩ := List.append_of_mem hax
        have hsfx : (x :: t) <:+ (x :: xs) := by
          rw [hst]
          exact ⟨x :: s, by simp⟩
        have hch : List.Chain' r (x :: t) := h3.suffix hsfx
        have hlast : (x :: t).getLast? = some b := by
          rw [hst] at h2
          rw [show x :: (s ++ x :: t) = (x :: s) ++ (x :: t) by simp] at h2
          rw [List.getLast?_append_of_ne_nil _ (by simp)] at h2
          exact h2
        have hlt : (x :: t).length ≤ n := by
          rw [hst] at hl
          simp only [List.length_cons, List.length_append] at hl ⊢
          omega
        obtain ⟨q, hq1, hq2, hq3, hq4⟩ := ih (x :: t) x b hlt ⟨rfl, hlast, hch⟩
        refine ⟨q, hq1, hq2, ?_, ?_⟩
        · refine le_trans hq3 ?_
          rw [hst]
          simp only [List.length_cons, List.length_append]
          omega
        · intro y hy
          exact hsfx.subset (hq4 y hy)
      · match xs, hax with
        | [], _ =>
          exact ⟨[x], ⟨rfl, h2, h3⟩, List.nodup_singleton _, le_refl _,
            fun y hy => hy⟩
        | c :: tl, hax =>
          rw [List.chain'_cons] at h3
          rw [List.getLast?_cons_cons] at h2
          have hlt : (c :: tl).length ≤ n := by
            simp only [List.length_cons] at hl ⊢
            omega
          obtain ⟨q, hq1, hq2, hq3, hq4⟩ :=
            ih (c :: tl) c b hlt ⟨rfl, h2, h3.2⟩
          have hxq : x ∉ q := fun hcon => hax (hq4 x hcon)
          refine ⟨x :: q, IsPathR.cons h3.1 hq1,
            List.nodup_cons.mpr ⟨hxq, hq2⟩, ?_, ?_⟩
          · simp only [List.length_cons] at hq3 ⊢
            omega
          · intro y hy
            rcases List.mem_cons.mp hy with h5 | h5
            · exact h5 ▸ List.mem_cons_self _ _
            · exact List.mem_cons_of_mem _ (hq4 y h5)

/-! ## Claim theorems about solving -/

theorem solve_create_unique (W H : Int) (pick : Nat → Nat)
    (hW : 1 ≤ W) (hH : 1 ≤ H) (a b : Cell)
    (ha : (Maze.create W H pick).InBounds a)
    (hb : (Maze.create W H pick).InBounds b) :
    ∃ r, (Maze.create W H pick).solve_bfs a (some b) = some r ∧
      IsSimplePath (Maze.create W H pick) r a b ∧
      (∀ q, IsSimplePath (Maze.create W H pick) q a b → q = r) := by
  obtain ⟨hinv, hempty⟩ := create_inv W H pick hW hH
  have hsym : SymmCells (Maze.create W H pick).cells := hinv.symm
  have hcov := genInv_coverage W H _ hinv hempty
  obtain ⟨p0, hp0, hup⟩ := hinv.usp a b (hcov a ha) (hcov b hb)
  have hstep_of_open : ∀ x y, (Maze.create W H pick).openPair x y →
      (Maze.create W H pick).Rstep x y := by
    intro x y hxy
    exact (rstep_openPair _ hsym x y hxy.1).mpr hxy
  have hopen_of_step : ∀ x y, (Maze.create W H pick).Rstep x y →
      (Maze.create W H pick).openPair x y := by
    intro x y hxy
    exact (rstep_openPair _ hsym x y (rstep_inb_left hxy)).mp hxy
  have hreach : (Maze.create W H pick).Reaches a b := by
    obtain ⟨⟨h1, h2, h3⟩, -⟩ := hp0
    exact reflTransGen_of_pathR p0 a b h1 h2 (h3.imp hstep_of_open)
  obtain ⟨r, hsolve, hh, hl, hch, hnd⟩ :=
    solve_bfs_reached (Maze.create W H pick) a b ha hreach
  have hrpath : IsSimplePath (Maze.create W H pick) r a b :=
    ⟨⟨hh, hl, hch.imp hopen_of_step⟩, hnd⟩
  refine ⟨r, hsolve, hrpath, ?_⟩
  intro q hq
  exact (hup q hq).trans (hup r hrpath).symm

/-- C2: on every generated maze and in-bounds cells `a`, `b`, `solve_bfs`
returns the cell sequence from `a` to `b` whose consecutive pairs are
unit-adjacent with the shared wall absent, which is the unique simple path
between `a` and `b` and is no longer than any path between them (so its
edge count is the tree distance). -/
theorem solve_bfs_correct (W H : Int) (pick : Nat → Nat)
    (hW : 1 ≤ W) (hH : 1 ≤ H) (a b : Cell)
    (ha : (Maze.create W H pick).InBounds a)
    (hb : (Maze.create W H pick).InBounds b) :
    ∃ r, (Maze.create W H pick).solve_bfs a (some b) = some r ∧
      IsSimplePath (Maze.create W H pick) r a b ∧
      (∀ q, IsSimplePath (Maze.create W H pick) q a b → q = r) ∧
      (∀ q, IsPath (Maze.create W H pick) q a b → r.length ≤ q.length) := by
  obtain ⟨r, hsolve, hrsp, huniq⟩ :=
    solve_create_unique W H pick hW hH a b ha hb
  refine ⟨r, hsolve, hrsp, huniq, ?_⟩
  intro q hq
  obtain ⟨q', hq'1, hq'2, hq'3, -⟩ :=
    exists_simple_subpath q.length q a b (le_refl _) hq
  have hqr : q' = r := huniq q' ⟨hq'1, hq'2⟩
  rw [← hqr]
  exact hq'3

/-- C7: on every generated maze and in-bounds cells `a`, `b`, reversing
the sequence returned by `solve_bfs(a, b)` yields exactly the sequence
returned by `solve_bfs(b, a)` (in particular both have equal length). -/
theorem solve_bfs_reverse (W H : Int) (pick : Nat → Nat)
    (hW : 1 ≤ W) (hH : 1 ≤ H) (a b : Cell)
    (ha : (Maze.create W H pick).InBounds a)
    (hb : (Maze.create W H pick).InBounds b) :
    ((Maze.create W H pick).solve_bfs a (some b)).map List.reverse =
      (Maze.create W H pick).solve_bfs b (some a) := by
  obtain ⟨r, hsolve, hrsp, -⟩ :=
    solve_create_unique W H pick hW hH a b ha hb
  obtain ⟨r', hsolve', hrsp', huniq'⟩ :=
    solve_create_unique W H pick hW hH b a hb ha
  have hrev : IsSimplePath (Maze.create W H pick) r.reverse b a := by
    obtain ⟨hp, hnd⟩ := hrsp
    exact ⟨hp.reverse (fun x y h => Maze.openPair_symm h),
      List.nodup_reverse.mpr hnd⟩
  have hrr : r.reverse = r' := huniq' r.reverse hrev
  rw [hsolve, hsolve']
  show some r.reverse = some r'
  rw [hrr]

/-- C5 (amended): an out-of-bounds explicit `start` raises a `KeyError`
(modelled as `none`) as soon as `neighbors_open` first indexes the cell
dictionary — provided `start` differs from the goal; there is no
`OutOfBounds` check, and an out-of-bounds *goal* does not fail at all
(see the counterexample). -/
theorem solve_bfs_oob_start (m : Maze) (start : Cell)
    (goalOpt : Option Cell) (hs : ¬ m.InBounds start)
    (hne : start ≠ goalOpt.getD (m.width - 1, m.height - 1)) :
    m.solve_bfs start goalOpt = none := by
  have hno : m.neighbors_open start = none := by
    unfold Maze.neighbors_open
    rw [if_neg hs]
  have hfuel : bfsFuel m = (bfsFuel m - 1) + 1 := by
    unfold bfsFuel
    omega
  have hloop : bfsLoop m (goalOpt.getD (m.width - 1, m.height - 1))
      (bfsFuel m) [start] [(start, none)] = none := by
    rw [hfuel, bfsLoop_cons, if_neg hne, hno]
  rw [solve_bfs_eq, hloop]

/-- C5 (counterexample): the original claim also requires an
out-of-bounds *goal* to fail, but `solve(maze, (0,0), (10,10))` on a
`5×5` maze returns normally with the sequence `[(10,10)]`: the BFS loop
simply exhausts the queue and path reconstruction stops immediately. -/
theorem solve_bfs_oob_goal_no_error :
    (Maze.create 5 5 (fun _ => 0)).solve_bfs (0, 0) (some (10, 10)) =
      some [(10, 10)] := by
  apply solve_bfs_unreachable
  · decide
  · intro hre
    rcases Relation.ReflTransGen.cases_tail hre with heq | ⟨c, -, hstep⟩
    · exact absurd heq (by decide)
    · exact absurd (rstep_inb_right hstep) (by decide)

/-- C10: on every maze value (generated or manually constructed) with
in-bounds `start` and `goal`, if `goal` is unreachable from `start`
through open edges then `solve_bfs(start, goal)` returns the
single-element sequence `[goal]` — a non-empty result that does not begin
at `start`: reconstruction starts at `goal`, which has no predecessor
entry. -/
theorem solve_bfs_unreachable_goal (m : Maze) (start goal : Cell)
    (hs : m.InBounds start) (hg : m.InBounds goal)
    (hnr : ¬ m.Reaches start goal) :
    m.solve_bfs start (some goal) = some [goal] :=
  solve_bfs_unreachable m start goal hs hnr

/-- C8: solving never mutates the maze: for every maze and in-bounds
start and goal, `solve_bfs` and `neighbors_open` leave the width, the
height and every cell's wall booleans exactly as they found them (the
method bodies never assign to `self`). -/
theorem solve_does_not_mutate (m : Maze) (start : Cell)
    (goalOpt : Option Cell) (c : Cell) (hs : m.InBounds start)
    (hg : m.InBounds (goalOpt.getD (m.width - 1, m.height - 1)))
    (hc : m.InBounds c) :
    ((m.solveCall start goalOpt).2.width = m.width ∧
     (m.solveCall start goalOpt).2.height = m.height ∧
     ∀ x : Cell, (m.solveCall start goalOpt).2.cells x = m.cells x) ∧
    ((m.neighborsOpenCall c).2.width = m.width ∧
     (m.neighborsOpenCall c).2.height = m.height ∧
     ∀ x : Cell, (m.neighborsOpenCall c).2.cells x = m.cells x) :=
  ⟨⟨rfl, rfl, fun _ => rfl⟩, ⟨rfl, rfl, fun _ => rfl⟩⟩

/-! ## Witnesses: each hypothesis-bearing claim theorem at a concrete
input -/

/-- Witness for C1 at `W = H = 1` with the constant random stream. -/
theorem create_perfect_witness :
    (1 : Int) ≤ 1 ∧
    (openEdgeCount (Maze.create 1 1 (fun _ => 0)) : Int) = 1 * 1 - 1 :=
  ⟨by decide, (create_perfect 1 1 (fun _ => 0) (by decide) (by decide)).2.1⟩

/-- Witness for C6 at `W = H = 1`: the loop has terminated with an empty
stack. -/
theorem generation_terminates_witness :
    (1 : Int) ≤ 1 ∧
    (genLoop 1 1 (fun _ => 0) (genFuel 1 1) genInit).stack = [] :=
  ⟨by decide,
    (generation_terminates 1 1 (fun _ => 0) (by decide) (by decide)).1⟩

/-- Witness for C9 at `W = H = 1` and the cell `(0,0)`. -/
theorem create_wall_symmetry_witness :
    (Maze.create 1 1 (fun _ => 0)).InBounds (0, 0) ∧
    ((∃ l, (Maze.create 1 1 (fun _ => 0)).neighbors_open (0, 0) = some l ∧
        ((0, 0) : Cell) ∈ l) ↔
      (Maze.create 1 1 (fun _ => 0)).openPair (0, 0) (0, 0)) :=
  ⟨by decide,
    (create_wall_symmetry 1 1 (fun _ => 0) (by decide) (by decide)).2
      (0, 0) (0, 0) (by decide)⟩

/-- Witness for C3 at seed `42`, `W = H = 1`, two different ambient
streams. -/
theorem createSeeded_deterministic_witness :
    (1 : Int) ≤ 1 ∧
    ∀ (c : Cell) (d : Dir),
      wallGet ((Maze.createSeeded 1 1 (fun _ => 0) (some 42)).cells c) d =
        wallGet ((Maze.createSeeded 1 1 (fun _ => 1) (some 42)).cells c) d :=
  ⟨by decide,
    (createSeeded_deterministic 42 1 1 (fun _ => 0) (fun _ => 1)
      (by decide) (by decide)).2.2⟩

/-- Witness for C4 at the spec scenario `create(0, 5)`. -/
theorem create_nonpos_witness :
    ((0 : Int) ≤ 0 ∨ (5 : Int) ≤ 0) ∧
    Maze.create 0 5 (fun _ => 0) = Maze.mk 0 5 (fun _ => allWalls) :=
  ⟨Or.inl (by decide), create_nonpos 0 5 (fun _ => 0) (Or.inl (by decide))⟩

/-- Witness for C2 on a generated `2 × 1` maze from `(0,0)` to `(1,0)`. -/
theorem solve_bfs_correct_witness :
    (Maze.create 2 1 (fun _ => 0)).InBounds (0, 0) ∧
    (Maze.create 2 1 (fun _ => 0)).InBounds (1, 0) ∧
    ∃ r, (Maze.create 2 1 (fun _ => 0)).solve_bfs (0, 0) (some (1, 0)) =
        some r ∧
      IsSimplePath (Maze.create 2 1 (fun _ => 0)) r (0, 0) (1, 0) ∧
      (∀ q, IsSimplePath (Maze.create 2 1 (fun _ => 0)) q (0, 0) (1, 0) →
        q = r) ∧
      (∀ q, IsPath (Maze.create 2 1 (fun _ => 0)) q (0, 0) (1, 0) →
        r.length ≤ q.length) :=
  ⟨by decide, by decide,
    solve_bfs_correct 2 1 (fun _ => 0) (by decide) (by decide) (0, 0) (1, 0)
      (by decide) (by decide)⟩

/-- Witness for C7 on a generated `2 × 1` maze between its two cells. -/
theorem solve_bfs_reverse_witness :
    (Maze.create 2 1 (fun _ => 0)).InBounds (0, 0) ∧
    (Maze.create 2 1 (fun _ => 0)).InBounds (1, 0) ∧
    ((Maze.create 2 1 (fun _ => 0)).solve_bfs (0, 0)
        (some (1, 0))).map List.reverse =
      (Maze.create 2 1 (fun _ => 0)).solve_bfs (1, 0) (some (0, 0)) :=
  ⟨by decide, by decide,
    solve_bfs_reverse 2 1 (fun _ => 0) (by decide) (by decide) (0, 0) (1, 0)
      (by decide) (by decide)⟩

/-- Witness for C5 at the spec scenario: start `(10,10)` on a `5 × 5`
maze (with the default goal `(4,4)`). -/
theorem solve_bfs_oob_start_witness :
    ¬ (Maze.create 5 5 (fun _ => 0)).InBounds (10, 10) ∧
    ((10, 10) : Cell) ≠ (none : Option Cell).getD
      ((Maze.create 5 5 (fun _ => 0)).width - 1,
       (Maze.create 5 5 (fun _ => 0)).height - 1) ∧
    (Maze.create 5 5 (fun _ => 0)).solve_bfs (10, 10) none = none :=
  ⟨by decide, by decide,
    solve_bfs_oob_start (Maze.create 5 5 (fun _ => 0)) (10, 10) none
      (by decide) (by decide)⟩

/-- Witness for C10 on a manually constructed fully-walled `2 × 1` grid,
whose two cells are mutually unreachable. -/
theorem solve_bfs_unreachable_goal_witness :
    (Maze.mk 2 1 (fun _ => allWalls)).InBounds (0, 0) ∧
    (Maze.mk 2 1 (fun _ => allWalls)).InBounds (1, 0) ∧
    ¬ (Maze.mk 2 1 (fun _ => allWalls)).Reaches (0, 0) (1, 0) ∧
    (Maze.mk 2 1 (fun _ => allWalls)).solve_bfs (0, 0) (some (1, 0)) =
      some [(1, 0)] := by
  have hnostep : ∀ a b : Cell,
      ¬ (Maze.mk 2 1 (fun _ => allWalls)).Rstep a b := by
    intro a b hstep
    have hin := rstep_inb_left hstep
    have h' : ∃ l, (Maze.mk 2 1 (fun _ => allWalls)).neighbors_open a =
        some l ∧ b ∈ l := hstep
    rw [rstep_iff _ a b hin] at h'
    rcases h' with ⟨-, h2, -⟩ | ⟨-, h2, -⟩ | ⟨-, h2, -⟩ | ⟨-, h2, -⟩ <;>
      exact Bool.noConfusion h2
  have hnr : ¬ (Maze.mk 2 1 (fun _ => allWalls)).Reaches (0, 0) (1, 0) := by
    intro hre
    rcases Relation.ReflTransGen.cases_tail hre with heq | ⟨c, -, hstep⟩
    · exact absurd heq (by decide)
    · exact hnostep c (1, 0) hstep
  exact ⟨by decide, by decide, hnr,
    solve_bfs_unreachable_goal _ (0, 0) (1, 0) (by decide) (by decide) hnr⟩

/-- Witness for C8 on a `1 × 1` grid with default goal. -/
theorem solve_does_not_mutate_witness :
    (Maze.mk 1 1 (fun _ => allWalls)).InBounds (0, 0) ∧
    ((Maze.mk 1 1 (fun _ => allWalls)).solveCall (0, 0) none).2.width = 1 ∧
    ((Maze.mk 1 1 (fun _ => allWalls)).neighborsOpenCall
      (0, 0)).2.width = 1 := by
  have h := solve_does_not_mutate (Maze.mk 1 1 (fun _ => allWalls)) (0, 0)
    none (0, 0) (by decide) (by decide) (by decide)
  exact ⟨by decide, h.1.1, h.2.1⟩
